import Mathlib

/-!
# Verification of the rocALUTION RS-AMG device kernels

Shallow embedding of `src/base/hip/hip_kernels_rsamg_csr.hpp`: the
strength-of-connection classifier, the PMIS coarsener, the direct and
extended+i interpolation builders and the prolongation compressor.

Each kernel is embedded as a pure function giving the value of every output
cell.  Wavefront-parallel loops are embedded as their single-lane sequential
denotation (the reductions used by the kernels are folds of associative,
commutative operations, so the lane count does not change the result).
Matrix values are embedded as rationals; the magic constant `0.2` of the
direct interpolation kernel is embedded as `1/5`.
-/

namespace RSAMG

/-- A CSR matrix, given by its row pointer, column index and value arrays.
The arrays are embedded as total functions; the kernels only ever read
indices inside the ranges delimited by `ptr`. -/
structure CSRMat where
  nrow : ℕ
  ptr : ℕ → ℕ
  col : ℕ → ℕ
  val : ℕ → ℚ

/-- The list of nonzero indices `j` of row `r`, i.e. the interval
`[ptr r, ptr (r+1))` scanned by every per-row kernel loop. -/
def rowJ (A : CSRMat) (r : ℕ) : List ℕ :=
  List.range' (A.ptr r) (A.ptr (r + 1) - A.ptr r)

/-! ## Strength-of-connection classifier (`kernel_csr_rs_pmis_strong_influences`) -/

/-- The shared per-wavefront flag `sign`: set to `val < 0` by the lane that
sees the diagonal entry.  Embedded as a left fold (last diagonal wins); a
zero-initialised shared buffer is embedded as initial value `false`. -/
def diagNeg (A : CSRMat) (r : ℕ) : Bool :=
  (rowJ A r).foldl (fun s j => if A.col j = r then decide (A.val j < 0) else s) false

/-- `min_a_ik` after the first kernel loop and the wavefront reduction:
minimum of `0` and all off-diagonal values of row `r`. -/
def minOff (A : CSRMat) (r : ℕ) : ℚ :=
  (rowJ A r).foldl (fun m j => if A.col j = r then m else min m (A.val j)) 0

/-- `max_a_ik` after the first kernel loop and the wavefront reduction:
maximum of `0` and all off-diagonal values of row `r`. -/
def maxOff (A : CSRMat) (r : ℕ) : ℚ :=
  (rowJ A r).foldl (fun m j => if A.col j = r then m else max m (A.val j)) 0

/-- The strength threshold `cond` of row `r`. -/
def condCode (A : CSRMat) (eps : ℚ) (r : ℕ) : ℚ :=
  eps * (if diagNeg A r then maxOff A r else minOff A r)

/-- Whether the kernel marks nonzero `j` of row `r` as a strong connection:
`col != row && val < cond`. -/
def strongB (A : CSRMat) (eps : ℚ) (r : ℕ) (j : ℕ) : Bool :=
  decide (A.col j ≠ r) && decide (A.val j < condCode A eps r)

/-- The strength mask `S` produced by the classifier: `S[j]` is set exactly
when the wavefront owning a row containing `j` marks `j` strong (the output
buffer is zero-initialised). -/
def classifierS (A : CSRMat) (eps : ℚ) : ℕ → Bool := fun j =>
  (List.range A.nrow).any (fun r => decide (j ∈ rowJ A r) && strongB A eps r j)

/-- Row-major list of all strong nonzero indices: the sequence of
`atomicAdd(&omega[col], 1.0f)` updates executed by the classifier. -/
def strongList (A : CSRMat) (eps : ℚ) : List ℕ :=
  (List.range A.nrow).flatMap (fun r => (rowJ A r).filter (fun j => strongB A eps r j))

/-- The influence weights after the classifier: every strong nonzero
atomically adds `1` to `omega` at its column index.  The atomic additions
commute, so the row-major sequential order gives the kernel's result. -/
def classifierOmega (A : CSRMat) (eps : ℚ) (om : ℕ → ℚ) : ℕ → ℚ :=
  (strongList A eps).foldl (fun f j => Function.update f (A.col j) (f (A.col j) + 1)) om

/-! Spec-side definitions for claim C3, written from the specification's words:
the threshold is ε times the maximum off-diagonal value of the row when the
diagonal is negative, and ε times the minimum off-diagonal value otherwise. -/

/-- The values of the off-diagonal nonzeros of row `r`. -/
def offVals (A : CSRMat) (r : ℕ) : List ℚ :=
  ((rowJ A r).filter (fun j => A.col j ≠ r)).map A.val

/-- The true maximum of a list of rationals (junk `0` on the empty list). -/
def listMax : List ℚ → ℚ
  | [] => 0
  | v :: t => t.foldl max v

/-- The true minimum of a list of rationals (junk `0` on the empty list). -/
def listMin : List ℚ → ℚ
  | [] => 0
  | v :: t => t.foldl min v

/-- Spec side: whether the diagonal of row `r` is negative. -/
def specNegDiag (A : CSRMat) (r : ℕ) : Bool :=
  (rowJ A r).any (fun j => decide (A.col j = r) && decide (A.val j < 0))

/-- Spec side: the threshold `cond` as the specification describes it,
ε times the true extremum of the off-diagonal values. -/
def specCond (A : CSRMat) (eps : ℚ) (r : ℕ) : ℚ :=
  eps * (if specNegDiag A r then listMax (offVals A r) else listMin (offVals A r))

/-! ## PMIS coarsener

One coarsening round is the sequence of kernel launches
`unassigned_to_coarse` (promote), `correct_coarse` (arbitrate),
`coarse_edges_to_fine`, `check_undecided`, each a global barrier apart.
Classification states: `0` = Undecided, `1` = Coarse, `2` = Fine. -/

/-- `kernel_csr_rs_pmis_unassigned_to_coarse`, `cf` output: an undecided row
with weight `≥ 1` becomes coarse, an undecided row with weight `< 1` becomes
fine, other rows are untouched. -/
def promoteCF (n : ℕ) (om : ℕ → ℚ) (cf : ℕ → ℤ) : ℕ → ℤ := fun i =>
  if i < n ∧ cf i = 0 then (if 1 ≤ om i then 1 else 2) else cf i

/-- `kernel_csr_rs_pmis_unassigned_to_coarse`, `workspace` output: marks the
rows promoted to coarse in the current round. -/
def promoteW (n : ℕ) (om : ℕ → ℚ) (cf : ℕ → ℤ) : ℕ → Bool := fun i =>
  decide (i < n) && decide (cf i = 0) && decide (1 ≤ om i)

/-- Whether `kernel_csr_rs_pmis_correct_coarse` writes `cf[i] = 0`: either
row `i` is flagged and sees a flagged strongly-connected neighbour of larger
weight in its own row, or some flagged row sees `i` as a flagged
strongly-connected neighbour of smaller weight.  The kernel reads only
`workspace`, `omega` and `S`, so its writes are order-independent. -/
def revertB (A : CSRMat) (S : ℕ → Bool) (om : ℕ → ℚ) (w : ℕ → Bool) : ℕ → Bool := fun i =>
  (w i && (rowJ A i).any (fun j => S j && w (A.col j) && decide (om i < om (A.col j)))) ||
    (w i &&
      (List.range A.nrow).any (fun r =>
        w r && (rowJ A r).any (fun j => S j && decide (A.col j = i) && decide (om i < om r))))

/-- `kernel_csr_rs_pmis_correct_coarse`: reverts the losing provisionally
coarse rows to undecided. -/
def arbCF (A : CSRMat) (S : ℕ → Bool) (om : ℕ → ℚ) (w : ℕ → Bool) (cf : ℕ → ℤ) :
    ℕ → ℤ := fun i => if revertB A S om w i then 0 else cf i

/-- `kernel_csr_rs_pmis_coarse_edges_to_fine`: an undecided row with a
strongly-connected coarse neighbour becomes fine.  The kernel only turns
`0` into `2` and only tests neighbours for the stable value `1`, so the
pre-kernel snapshot of `cf` determines the result. -/
def fineCF (A : CSRMat) (S : ℕ → Bool) (cf : ℕ → ℤ) : ℕ → ℤ := fun i =>
  if decide (i < A.nrow) && decide (cf i = 0) &&
      (rowJ A i).any (fun j => S j && decide (cf (A.col j) = 1)) then
    2
  else cf i

/-- One full PMIS round: promote, arbitrate, fine-by-coarse-neighbour. -/
def pmisRound (A : CSRMat) (S : ℕ → Bool) (om : ℕ → ℚ) (cf : ℕ → ℤ) : ℕ → ℤ :=
  fineCF A S (arbCF A S om (promoteW A.nrow om cf) (promoteCF A.nrow om cf))

/-- `kernel_csr_rs_pmis_check_undecided`: the convergence flag after the
round, true iff some row is still undecided. -/
def checkUnd (n : ℕ) (cf : ℕ → ℤ) : Bool :=
  (List.range n).any (fun i => decide (cf i = 0))

/-- Row `c` is a strongly-connected neighbour of row `r`: some nonzero of
row `r` with column `c` carries the strength mask. -/
def sedge (A : CSRMat) (S : ℕ → Bool) (r c : ℕ) : Prop :=
  ∃ j ∈ rowJ A r, S j = true ∧ A.col j = c

instance (A : CSRMat) (S : ℕ → Bool) (r c : ℕ) : Decidable (sedge A S r c) := by
  unfold sedge; infer_instance

/-- All column indices referenced by rows `< nrow` are themselves `< nrow`,
so that no kernel reads `cf`, `omega` or `workspace` out of bounds. -/
def colValid (A : CSRMat) : Prop :=
  ∀ r < A.nrow, ∀ j ∈ rowJ A r, A.col j < A.nrow

instance (A : CSRMat) : Decidable (colValid A) := by
  unfold colValid; infer_instance

/-- The undecided rows of a classification state. -/
def undecSet (n : ℕ) (cf : ℕ → ℤ) : Finset ℕ :=
  (Finset.range n).filter (fun i => cf i = 0)

/-- Symmetry of the strength mask on the row range: whenever `c` is a
strongly-connected neighbour of `r`, `r` is one of `c`. -/
def symS (A : CSRMat) (S : ℕ → Bool) : Prop :=
  ∀ r < A.nrow, ∀ c < A.nrow, sedge A S r c → sedge A S c r

instance (A : CSRMat) (S : ℕ → Bool) : Decidable (symS A S) := by
  unfold symS; infer_instance

/-- Strongly-connected coarse pairs have equal weights. -/
def invEq (A : CSRMat) (S : ℕ → Bool) (om : ℕ → ℚ) (cf : ℕ → ℤ) : Prop :=
  ∀ r c, sedge A S r c → cf r = 1 → cf c = 1 → om r = om c

/-- No strongly-connected neighbour of a coarse row is still undecided. -/
def invNb (A : CSRMat) (S : ℕ → Bool) (cf : ℕ → ℤ) : Prop :=
  ∀ r c, sedge A S r c → cf r = 1 → cf c ≠ 0

/-- Rows outside the launch range keep their initial (zero) state. -/
def invBd (n : ℕ) (cf : ℕ → ℤ) : Prop :=
  ∀ i, n ≤ i → cf i = 0

/-- Witness for C1: a concrete 2-row matrix (a strongly coupled pair). -/
def wA1 : CSRMat where
  nrow := 2
  ptr := fun r => if r = 0 then 0 else if r = 1 then 2 else 4
  col := fun j => if j = 0 then 0 else if j = 1 then 1 else if j = 2 then 0 else 1
  val := fun j => if j = 0 then 2 else if j = 1 then -1 else if j = 2 then -1 else 2

def wS1 : ℕ → Bool := fun j => j = 1 || j = 2

def wOm1 : ℕ → ℚ := fun i => if i = 0 then 3 else 2

/-- The 3-row instance refuting C2 as stated: the strength mask is
directional (`S` holds on edge `0 → 1` but not `1 → 0`), so row `1` is
reverted in round one but re-promoted unchallenged in round two. -/
def cxA2 : CSRMat where
  nrow := 3
  ptr := fun r => if r = 0 then 0 else if r = 1 then 2 else if r = 2 then 3 else 5
  col := fun j =>
    if j = 0 then 0 else if j = 1 then 1 else if j = 2 then 1 else if j = 3 then 2 else 0
  val := fun j => if j = 0 then 1 else if j = 1 then -1 else if j = 2 then 1
    else if j = 3 then 1 else -1

def cxS2 : ℕ → Bool := fun j => j = 1 || j = 4

def cxOm2 : ℕ → ℚ := fun i => if i = 0 then 3 else if i = 1 then 2 else 0

/-! ## Direct interpolation builder
(`kernel_csr_rs_direct_interp_nnz` / `kernel_csr_rs_direct_interp_fill`) -/

/-- `amin` accumulated over the strongly-connected coarse entries of row `r`
in the count kernel's first loop (initial value `0`). -/
def dirAminRaw (A : CSRMat) (S : ℕ → Bool) (cf : ℕ → ℤ) (r : ℕ) : ℚ :=
  (rowJ A r).foldl
    (fun m j => if S j && decide (cf (A.col j) = 1) then min m (A.val j) else m) 0

/-- `amax` accumulated symmetrically. -/
def dirAmaxRaw (A : CSRMat) (S : ℕ → Bool) (cf : ℕ → ℤ) (r : ℕ) : ℚ :=
  (rowJ A r).foldl
    (fun m j => if S j && decide (cf (A.col j) = 1) then max m (A.val j) else m) 0

/-- The `Amin[row]` array cell written by the count kernel (`amin * 0.2`). -/
def dirAmin (A : CSRMat) (S : ℕ → Bool) (cf : ℕ → ℤ) (r : ℕ) : ℚ :=
  dirAminRaw A S cf r * (1 / 5)

/-- The `Amax[row]` array cell written by the count kernel (`amax * 0.2`). -/
def dirAmax (A : CSRMat) (S : ℕ → Bool) (cf : ℕ → ℤ) (r : ℕ) : ℚ :=
  dirAmaxRaw A S cf r * (1 / 5)

/-- `row_nnz[row]` of the count kernel: one for a coarse row, else the
number of strongly-connected coarse entries at or beyond the band. -/
def dirRowNnz (A : CSRMat) (S : ℕ → Bool) (cf : ℕ → ℤ) (r : ℕ) : ℕ :=
  if cf r = 1 then 1
  else
    ((rowJ A r).filter (fun j =>
      S j && decide (cf (A.col j) = 1) &&
        (decide (A.val j ≤ dirAmin A S cf r) || decide (dirAmax A S cf r ≤ A.val j)))).length

/-- The nonzeros of a non-coarse row `r` that the fill kernel writes into P,
in scan order: strongly-connected coarse entries not skipped by the strict
interior test `Amin < val && val < Amax`. -/
def dirFillJs (A : CSRMat) (S : ℕ → Bool) (cf : ℕ → ℤ) (r : ℕ) : List ℕ :=
  (rowJ A r).filter (fun j =>
    S j && decide (cf (A.col j) = 1) &&
      !(decide (dirAmin A S cf r < A.val j) && decide (A.val j < dirAmax A S cf r)))

/-- The P column indices the fill kernel writes for a non-coarse row, in
write order (`f2c[col]` at consecutive positions from `P.ptr row`). -/
def dirFillCols (A : CSRMat) (S : ℕ → Bool) (cf : ℕ → ℤ) (f2c : ℕ → ℕ) (r : ℕ) : List ℕ :=
  (dirFillJs A S cf r).map (fun j => f2c (A.col j))

/-- The instance refuting C6 for the direct fill kernel: row `0` stores its
strongly-connected coarse neighbours in decreasing column order (`2` before
`1`), which the fill kernel replays verbatim. -/
def cxA6 : CSRMat where
  nrow := 3
  ptr := fun r => if r = 0 then 0 else if r = 1 then 3 else if r = 2 then 4 else 5
  col := fun j =>
    if j = 0 then 0 else if j = 1 then 2 else if j = 2 then 1 else if j = 3 then 1 else 2
  val := fun j => if j = 0 then 1 else if j = 1 then -1 else if j = 2 then -1 else 1

def cxS6 : ℕ → Bool := fun j => j = 1 || j = 2

def cxCf6 : ℕ → ℤ := fun i => if i = 0 then 2 else 1

def cxF2c6 : ℕ → ℕ := fun i => if i = 2 then 1 else 0

/-! ## Extended+i interpolation builder
(`kernel_csr_rs_extpi_interp_max` / `_nnz` / `_fill`)

The per-row hash set/map lives in `hip_unordered_set.hpp` /
`hip_unordered_map.hpp`, which are not part of this source tree; the
structures below are modelled from the specification instead. -/

/-- Modelled from the spec: the `insert` operation of the on-chip
`unordered_set`/`unordered_map` (missing `hip_unordered_set.hpp` /
`hip_unordered_map.hpp`): insert-if-absent with no loss of distinct keys
while within capacity; the slot order is the insertion order. -/
def insertD (l : List ℕ) (c : ℕ) : List ℕ :=
  if c ∈ l then l else l ++ [c]

/-- The second-hop scan over the row of a strongly-connected fine
neighbour `cj`: collect (with duplicates) every strongly-connected coarse
point, stopping after the first one when `FF1` is set.  Shared verbatim by
the `max`, `nnz` and `fill` kernels. -/
def innerVisit (A : CSRMat) (S : ℕ → Bool) (cf : ℕ → ℤ) (FF1 : Bool) (cj : ℕ) :
    List ℕ → List ℕ
  | [] => []
  | l :: ls =>
    if S l = false then innerVisit A S cf FF1 cj ls
    else if A.col l = cj then innerVisit A S cf FF1 cj ls
    else if cf (A.col l) = 1 then
      (if FF1 then [A.col l] else A.col l :: innerVisit A S cf FF1 cj ls)
    else innerVisit A S cf FF1 cj ls

/-- The full traversal of a non-coarse row `i`: every reachable coarse
point in scan order, duplicates included — directly-connected strong coarse
neighbours, and the second hop through strong fine neighbours. -/
def visitRow (A : CSRMat) (S : ℕ → Bool) (cf : ℕ → ℤ) (FF1 : Bool) (i : ℕ) : List ℕ :=
  (rowJ A i).flatMap (fun j =>
    if S j = false then []
    else if A.col j = i then []
    else if cf (A.col j) = 1 then [A.col j]
    else innerVisit A S cf FF1 (A.col j) (rowJ A (A.col j)))

/-- `row_max[row]` of `kernel_csr_rs_extpi_interp_max`: `1` for a coarse
row, else the duplicate-counting length of the traversal. -/
def rowMaxExt (A : CSRMat) (S : ℕ → Bool) (cf : ℕ → ℤ) (FF1 : Bool) (i : ℕ) : ℕ :=
  if cf i = 1 then 1 else (visitRow A S cf FF1 i).length

/-- Modelled from the spec: the set-building loop of
`kernel_csr_rs_extpi_interp_nnz` — the running pair (set slots, counter),
where `insert` returns `1` exactly on first occurrence. -/
def nnzFold (l : List ℕ) : List ℕ × ℕ :=
  l.foldl (fun p c => if c ∈ p.1 then p else (p.1 ++ [c], p.2 + 1)) ([], 0)

/-- `row_nnz[row]` of `kernel_csr_rs_extpi_interp_nnz`: `1` for a coarse
row, else the deduplicated count of the traversal. -/
def rowNnzExt (A : CSRMat) (S : ℕ → Bool) (cf : ℕ → ℤ) (FF1 : Bool) (i : ℕ) : ℕ :=
  if cf i = 1 then 1 else (nnzFold (visitRow A S cf FF1 i)).2

/-- Modelled from the spec: the key set `C^hat` built by the pattern phase
of `kernel_csr_rs_extpi_interp_fill` (same traversal as the `nnz` kernel),
in slot order. -/
def chatList (A : CSRMat) (S : ℕ → Bool) (cf : ℕ → ℤ) (FF1 : Bool) (i : ℕ) : List ℕ :=
  (visitRow A S cf FF1 i).foldl insertD []

/-- The sorting rank used by the fill kernel's output loop: the number of
occupied slots holding a strictly smaller key. -/
def rankOf (keys : List ℕ) (k : ℕ) : ℕ :=
  (keys.filter (fun x => x < k)).length

/-- The P column-index cells after the fill kernel's output loop: every
occupied slot writes `f2c[key]` at offset `rank` from the row start `aj`. -/
def extpiWriteCols (base : ℕ → ℕ) (aj : ℕ) (keys : List ℕ) (f2c : ℕ → ℕ) : ℕ → ℕ :=
  keys.foldl (fun acc k => Function.update acc (aj + rankOf keys k) (f2c k)) base

/-- The column entries of row `i` of P as written by the extended+i fill
kernel: the cells `aj .. aj + |C^hat| - 1` of the column array. -/
def extpiRowCols (A : CSRMat) (S : ℕ → Bool) (cf : ℕ → ℤ) (FF1 : Bool)
    (f2c : ℕ → ℕ) (base : ℕ → ℕ) (aj : ℕ) (i : ℕ) : List ℕ :=
  (List.range (chatList A S cf FF1 i).length).map
    (fun p => extpiWriteCols base aj (chatList A S cf FF1 i) f2c (aj + p))

/-- `sum_l` of the numerical phase of `kernel_csr_rs_extpi_interp_fill`,
before the update `sum_l = val_ik / sum_l`: over the row of the fine
neighbour `col k`, the entry at column `i` contributes when its sign
differs from the sign of `diag[i]`, and a coarse entry contributes when its
sign differs and its column is in `C^hat`. -/
def sumL (A : CSRMat) (S : ℕ → Bool) (cf : ℕ → ℤ) (FF1 : Bool) (dg : ℕ → ℚ)
    (i k : ℕ) : ℚ :=
  ((rowJ A (A.col k)).map (fun l =>
    if A.col l = i then (if (0 ≤ dg i ↔ 0 ≤ A.val l) then 0 else A.val l)
    else if cf (A.col l) = 1 ∧ ¬(0 ≤ dg i ↔ 0 ≤ A.val l) ∧
        A.col l ∈ chatList A S cf FF1 i then A.val l
    else 0)).sum

/-- The entries of `sum_l` that the kernel actually accumulates: sign
opposite to `diag[i]`, at column `i` or at a coarse column of `C^hat`. -/
def contribCond (A : CSRMat) (S : ℕ → Bool) (cf : ℕ → ℤ) (FF1 : Bool) (dg : ℕ → ℚ)
    (i l : ℕ) : Prop :=
  ¬(0 ≤ dg i ↔ 0 ≤ A.val l) ∧
    (A.col l = i ∨ (cf (A.col l) = 1 ∧ A.col l ∈ chatList A S cf FF1 i))

/-- `val_ki`: the entry of the fine neighbour's row at column `i` (`0` when
absent), kept by the `sum_l` loop. -/
def valKi (A : CSRMat) (i cj : ℕ) : ℚ :=
  (rowJ A cj).foldl (fun acc l => if A.col l = i then A.val l else acc) 0

/-- The `sum_k` contribution of one strongly-connected fine neighbour
(`val_ki * (val_ik / sum_l)` when the signs of `a_kk` and `a_ki` differ). -/
def sumKContrib (A : CSRMat) (S : ℕ → Bool) (cf : ℕ → ℤ) (FF1 : Bool) (dg : ℕ → ℚ)
    (i k : ℕ) : ℚ :=
  if ¬(0 ≤ dg (A.col k) ↔ 0 ≤ valKi A i (A.col k)) then
    valKi A i (A.col k) * (A.val k / sumL A S cf FF1 dg i k)
  else 0

/-- The final scaling denominator `a_ii_tilde + a_ii` of the fill kernel:
`sum_k` over strong fine neighbours, plus `sum_n` over entries neither in
`C^hat` nor strong, plus `diag[i]`. -/
def extpiDenom (A : CSRMat) (S : ℕ → Bool) (cf : ℕ → ℤ) (FF1 : Bool) (dg : ℕ → ℚ)
    (i : ℕ) : ℚ :=
  dg i + ((rowJ A i).map (fun k =>
    if A.col k = i then 0
    else
      (if S k = true ∧ cf (A.col k) = 2 then sumKContrib A S cf FF1 dg i k else 0) +
        (if ¬(cf (A.col k) = 1 ∧ A.col k ∈ chatList A S cf FF1 i) ∧ S k = false then
          A.val k
        else 0))).sum

/-! ## Compressor (`kernel_csr_rs_extpi_interp_compress_fill`) -/

/-- The absolute row maximum `row_max`. -/
def rowMaxAbs (A : CSRMat) (r : ℕ) : ℚ :=
  (rowJ A r).foldl (fun m j => max m |A.val j|) 0

/-- The original row sum `row_sum`. -/
def rowSum (A : CSRMat) (r : ℕ) : ℚ :=
  ((rowJ A r).map A.val).sum

/-- The entries kept by the truncation test `|val| ≥ row_max * trunc`. -/
def compKeepJs (A : CSRMat) (trunc : ℚ) (r : ℕ) : List ℕ :=
  (rowJ A r).filter (fun j => decide (rowMaxAbs A r * trunc ≤ |A.val j|))

/-- `comp_row_sum`: the sum of the kept entries before rescaling. -/
def compRowSum (A : CSRMat) (trunc : ℚ) (r : ℕ) : ℚ :=
  ((compKeepJs A trunc r).map A.val).sum

/-- The rescaling factor `scale = row_sum / comp_row_sum`. -/
def compScale (A : CSRMat) (trunc : ℚ) (r : ℕ) : ℚ :=
  rowSum A r / compRowSum A trunc r

/-- The values of the compressed row after the in-place rescale. -/
def compVals (A : CSRMat) (trunc : ℚ) (r : ℕ) : List ℚ :=
  (compKeepJs A trunc r).map (fun j => A.val j * compScale A trunc r)

/-- The 2-row instance refuting C8: row `0` is fine with the single strong
fine neighbour `1`, whose row holds only its positive diagonal, so no entry
of opposite sign contributes to `sum_l`; row `0` has no stored diagonal and
`diag[0] = 0`, so the final denominator also vanishes. -/
def cxA8 : CSRMat where
  nrow := 2
  ptr := fun r => if r = 0 then 0 else if r = 1 then 1 else 2
  col := fun _ => 1
  val := fun j => if j = 0 then -1 else 5

def cxS8 : ℕ → Bool := fun j => j = 0

def cxCf8 : ℕ → ℤ := fun _ => 2

def cxDg8 : ℕ → ℚ := fun i => if i = 0 then 0 else 5

/-- The 3-row instance witnessing the amended C6: a sorted fine row `0`
with the two coarse neighbours `1` and `2`. -/
def wA6 : CSRMat where
  nrow := 3
  ptr := fun r => if r = 0 then 0 else if r = 1 then 3 else if r = 2 then 4 else 5
  col := fun j =>
    if j = 0 then 0 else if j = 1 then 1 else if j = 2 then 2 else if j = 3 then 1 else 2
  val := fun j => if j = 0 then 1 else if j = 1 then -1 else if j = 2 then -1 else 1

def wS6 : ℕ → Bool := fun j => j = 1 || j = 2

def wCf6 : ℕ → ℤ := fun i => if i = 1 then 1 else if i = 2 then 1 else 2

def wF2c6 : ℕ → ℕ := fun i => if i = 2 then 1 else 0

/-- The 1-row instance witnessing C9: values `4` and `1`, truncation ratio
`1/2`, so only `4` survives and is rescaled to the original row sum `5`. -/
def wA9 : CSRMat where
  nrow := 1
  ptr := fun r => if r = 0 then 0 else 2
  col := fun j => j
  val := fun j => if j = 0 then 4 else 1

/-! ## Basic facts about one PMIS round -/

section PMISLemmas

variable (A : CSRMat) (S : ℕ → Bool) (om : ℕ → ℚ)

lemma promoteW_eq_true {cf : ℕ → ℤ} {i : ℕ} :
    promoteW A.nrow om cf i = true ↔ i < A.nrow ∧ cf i = 0 ∧ 1 ≤ om i := by
  simp [promoteW, and_assoc]

lemma promoteCF_ne {cf : ℕ → ℤ} {i : ℕ} (h : cf i ≠ 0) :
    promoteCF A.nrow om cf i = cf i := by
  unfold promoteCF
  rw [if_neg]
  rintro ⟨-, h0⟩
  exact h h0

lemma revertB_of_w_false {w : ℕ → Bool} {i : ℕ} (hw : w i = false) :
    revertB A S om w i = false := by
  unfold revertB
  simp [hw]

/-- Rows that are already decided are untouched by a full PMIS round. -/
lemma pmisRound_preserve {cf : ℕ → ℤ} {i : ℕ} (h : cf i ≠ 0) :
    pmisRound A S om cf i = cf i := by
  have hw : promoteW A.nrow om cf i = false := by
    simp [promoteW, h]
  have h1 : promoteCF A.nrow om cf i = cf i := promoteCF_ne A om h
  have h2 : arbCF A S om (promoteW A.nrow om cf) (promoteCF A.nrow om cf) i = cf i := by
    unfold arbCF
    rw [revertB_of_w_false A S om hw, if_neg (by simp)]
    exact h1
  unfold pmisRound fineCF
  rw [h2]
  rw [if_neg]
  simp only [Bool.and_eq_true, decide_eq_true_eq]
  rintro ⟨⟨-, h0⟩, -⟩
  exact h h0

/-- Progress: while undecided rows exist, a PMIS round decides at least one
of them.  Either no undecided row has weight `≥ 1` and all of them become
fine, or the flagged row of maximal weight survives arbitration as coarse. -/
lemma pmisRound_progress {cf : ℕ → ℤ}
    (hex : ∃ i < A.nrow, cf i = 0) :
    ∃ m < A.nrow, cf m = 0 ∧ pmisRound A S om cf m ≠ 0 := by
  classical
  set F : Finset ℕ := (Finset.range A.nrow).filter (fun i => cf i = 0 ∧ 1 ≤ om i) with hF
  by_cases hFne : F.Nonempty
  · obtain ⟨m, hmF, hmax⟩ := F.exists_max_image om hFne
    have hm : m < A.nrow ∧ cf m = 0 ∧ 1 ≤ om m := by
      have := hmF
      rw [hF, Finset.mem_filter, Finset.mem_range] at this
      exact ⟨this.1, this.2.1, this.2.2⟩
    have hwF : ∀ c, promoteW A.nrow om cf c = true → om c ≤ om m := by
      intro c hc
      rw [promoteW_eq_true] at hc
      refine hmax c ?_
      rw [hF, Finset.mem_filter, Finset.mem_range]
      exact ⟨hc.1, hc.2.1, hc.2.2⟩
    refine ⟨m, hm.1, hm.2.1, ?_⟩
    have h1 : promoteCF A.nrow om cf m = 1 := by
      unfold promoteCF
      rw [if_pos ⟨hm.1, hm.2.1⟩, if_pos hm.2.2]
    have hrev : revertB A S om (promoteW A.nrow om cf) m = false := by
      unfold revertB
      rw [Bool.or_eq_false_iff]
      constructor
      · rw [Bool.and_eq_false_iff]
        right
        rw [List.any_eq_false]
        intro j hj
        simp only [Bool.and_eq_true, decide_eq_true_eq, not_and]
        rintro ⟨-, hwc⟩
        exact not_lt.mpr (hwF _ hwc)
      · rw [Bool.and_eq_false_iff]
        right
        rw [List.any_eq_false]
        intro r hr
        simp only [Bool.and_eq_true, List.any_eq_true, decide_eq_true_eq, not_and]
        rintro hwr ⟨j, hj, ⟨-, -⟩, hlt⟩
        exact absurd hlt (not_lt.mpr (hwF _ hwr))
    have h2 : arbCF A S om (promoteW A.nrow om cf) (promoteCF A.nrow om cf) m = 1 := by
      unfold arbCF
      rw [hrev, if_neg (by simp)]
      exact h1
    unfold pmisRound fineCF
    rw [h2]
    rw [if_neg (by simp)]
    decide
  · obtain ⟨u, hu, hcu⟩ := hex
    have homu : ¬1 ≤ om u := by
      intro hle
      exact hFne ⟨u, by rw [hF, Finset.mem_filter, Finset.mem_range]; exact ⟨hu, hcu, hle⟩⟩
    refine ⟨u, hu, hcu, ?_⟩
    have h1 : promoteCF A.nrow om cf u = 2 := by
      unfold promoteCF
      rw [if_pos ⟨hu, hcu⟩, if_neg homu]
    have hw : promoteW A.nrow om cf u = false := by
      rw [Bool.eq_false_iff]
      intro hc
      exact homu (promoteW_eq_true A om |>.mp hc).2.2
    have h2 : arbCF A S om (promoteW A.nrow om cf) (promoteCF A.nrow om cf) u = 2 := by
      unfold arbCF
      rw [revertB_of_w_false A S om hw, if_neg (by simp)]
      exact h1
    unfold pmisRound fineCF
    rw [h2]
    rw [if_neg (by simp)]
    decide

lemma undecSet_round_subset {cf : ℕ → ℤ} :
    undecSet A.nrow (pmisRound A S om cf) ⊆ undecSet A.nrow cf := by
  intro i hi
  rw [undecSet, Finset.mem_filter, Finset.mem_range] at hi ⊢
  refine ⟨hi.1, ?_⟩
  by_contra hne
  exact hne (by rw [← pmisRound_preserve A S om hne]; exact hi.2)

lemma undecSet_round_lt {cf : ℕ → ℤ} (hne : (undecSet A.nrow cf).Nonempty) :
    (undecSet A.nrow (pmisRound A S om cf)).card < (undecSet A.nrow cf).card := by
  obtain ⟨u, hu⟩ := hne
  rw [undecSet, Finset.mem_filter, Finset.mem_range] at hu
  obtain ⟨m, hm, hcm, hrm⟩ := pmisRound_progress A S om ⟨u, hu.1, hu.2⟩
  refine Finset.card_lt_card ⟨undecSet_round_subset A S om, fun hsub => hrm ?_⟩
  have := hsub (by rw [undecSet, Finset.mem_filter, Finset.mem_range]; exact ⟨hm, hcm⟩)
  rw [undecSet, Finset.mem_filter] at this
  exact this.2

lemma undecSet_iterate_bound {cf0 : ℕ → ℤ} :
    ∀ t, (undecSet A.nrow ((pmisRound A S om)^[t] cf0)).card = 0 ∨
      (undecSet A.nrow ((pmisRound A S om)^[t] cf0)).card + t ≤ A.nrow := by
  intro t
  induction t with
  | zero =>
    right
    simpa using Finset.card_le_card
      (Finset.filter_subset (fun i => cf0 i = 0) (Finset.range A.nrow))
  | succ t ih =>
    by_cases hz : (undecSet A.nrow ((pmisRound A S om)^[t] cf0)).card = 0
    · left
      rw [Function.iterate_succ_apply']
      rw [Finset.card_eq_zero] at hz ⊢
      rw [Finset.eq_empty_iff_forall_not_mem] at hz ⊢
      intro i hi
      exact hz i (undecSet_round_subset A S om hi)
    · rcases ih with h0 | hle
      · exact absurd h0 hz
      · right
        rw [Function.iterate_succ_apply']
        have hlt := undecSet_round_lt A S om
          (Finset.card_pos.mp (Nat.pos_of_ne_zero hz))
        omega

end PMISLemmas

/-- C1.  The PMIS coarsening loop terminates: for every CSR structure, fixed
strength mask `S` and fixed weights `om`, after at most `nrow` rounds no row
is left undecided and the convergence flag that drives the `while` loop is
clear.  No iteration cap is involved: progress holds in every round. -/
theorem pmis_terminates (A : CSRMat) (S : ℕ → Bool) (om : ℕ → ℚ)
    (_hcol : colValid A) :
    (∀ i < A.nrow, ((pmisRound A S om)^[A.nrow] (fun _ => 0)) i ≠ 0) ∧
      checkUnd A.nrow ((pmisRound A S om)^[A.nrow] (fun _ => 0)) = false := by
  have hcard : (undecSet A.nrow ((pmisRound A S om)^[A.nrow] (fun _ => 0))).card = 0 := by
    rcases @undecSet_iterate_bound A S om (fun _ => 0) A.nrow with h | h
    · exact h
    · omega
  have hmem : ∀ i < A.nrow, ((pmisRound A S om)^[A.nrow] (fun _ => 0)) i ≠ 0 := by
    intro i hi h0
    rw [Finset.card_eq_zero, Finset.eq_empty_iff_forall_not_mem] at hcard
    exact hcard i (by rw [undecSet, Finset.mem_filter, Finset.mem_range]; exact ⟨hi, h0⟩)
  refine ⟨hmem, ?_⟩
  rw [checkUnd, List.any_eq_false]
  intro i hi
  simp only [decide_eq_true_eq]
  exact hmem i (List.mem_range.mp hi)

theorem pmis_terminates_witness :
    colValid wA1 ∧
      ((pmisRound wA1 wS1 wOm1)^[wA1.nrow] (fun _ => 0)) 0 ≠ 0 ∧
      checkUnd wA1.nrow ((pmisRound wA1 wS1 wOm1)^[wA1.nrow] (fun _ => 0)) = false := by
  have hcol : colValid wA1 := by decide
  exact ⟨hcol, (pmis_terminates wA1 wS1 wOm1 hcol).1 0 (by decide),
    (pmis_terminates wA1 wS1 wOm1 hcol).2⟩

/-! ## The arbitration invariant (claim C2) -/

section Invariant

variable {A : CSRMat} {S : ℕ → Bool} {om : ℕ → ℚ}

lemma fineCF_eq_one {cf : ℕ → ℤ} {i : ℕ} (h : fineCF A S cf i = 1) : cf i = 1 := by
  unfold fineCF at h
  split at h
  · exact absurd h (by decide)
  · exact h

lemma arbCF_eq_one {w : ℕ → Bool} {cf : ℕ → ℤ} {i : ℕ}
    (h : arbCF A S om w cf i = 1) :
    revertB A S om w i = false ∧ cf i = 1 := by
  unfold arbCF at h
  split at h
  · exact absurd h (by decide)
  · rename_i hrev
    exact ⟨Bool.eq_false_iff.mpr hrev, h⟩

lemma promoteCF_eq_one {cf : ℕ → ℤ} {i : ℕ} (h : promoteCF A.nrow om cf i = 1) :
    cf i = 1 ∨ promoteW A.nrow om cf i = true := by
  unfold promoteCF at h
  split at h
  · rename_i hg
    split at h
    · rename_i hom
      exact Or.inr (promoteW_eq_true A om |>.mpr ⟨hg.1, hg.2, hom⟩)
    · exact absurd h (by decide)
  · exact Or.inl h

/-- A PMIS round preserves the three invariants. -/
lemma pmisRound_inv (hsym : symS A S) (hcol : colValid A) {cf : ℕ → ℤ}
    (hEq : invEq A S om cf) (hNb : invNb A S cf) (hBd : invBd A.nrow cf) :
    invEq A S om (pmisRound A S om cf) ∧ invNb A S (pmisRound A S om cf) ∧
      invBd A.nrow (pmisRound A S om cf) := by
  set w := promoteW A.nrow om cf with hw
  set cf1 := promoteCF A.nrow om cf with hcf1
  set cf2 := arbCF A S om w cf1 with hcf2
  have hround : pmisRound A S om cf = fineCF A S cf2 := rfl
  -- out-of-range rows stay zero
  have hBd3 : invBd A.nrow (pmisRound A S om cf) := by
    intro i hi
    have hwi : w i = false := by
      rw [hw, Bool.eq_false_iff]
      intro hc
      exact absurd (promoteW_eq_true A om |>.mp hc).1 (by omega)
    have h1 : cf1 i = cf i := by
      rw [hcf1]
      unfold promoteCF
      rw [if_neg]
      rintro ⟨hlt, -⟩
      omega
    have h2 : cf2 i = cf i := by
      rw [hcf2]
      unfold arbCF
      rw [revertB_of_w_false A S om hwi, if_neg (by simp)]
      exact h1
    rw [hround]
    unfold fineCF
    rw [if_neg (by simp; omega)]
    rw [h2]
    exact hBd i hi
  -- coarse rows of the new state were either old coarse or freshly flagged
  have hsteps : ∀ i, pmisRound A S om cf i = 1 →
      cf2 i = 1 ∧ revertB A S om w i = false ∧ (cf i = 1 ∨ w i = true) := by
    intro i hi
    rw [hround] at hi
    have h2 : cf2 i = 1 := fineCF_eq_one hi
    obtain ⟨hrev, h1⟩ := arbCF_eq_one h2
    exact ⟨h2, hrev, promoteCF_eq_one h1⟩
  have hlt_of_one : ∀ i, pmisRound A S om cf i = 1 → i < A.nrow := by
    intro i hi
    by_contra hge
    exact absurd (hBd3 i (by omega)) (by rw [hi]; decide)
  have hlt_of_old : ∀ i, cf i = 1 → i < A.nrow := by
    intro i hi
    by_contra hge
    exact absurd (hBd i (by omega)) (by rw [hi]; decide)
  have hNb3 : invNb A S (pmisRound A S om cf) := by
    intro r c hrc hr1 hc0
    have hrn : r < A.nrow := hlt_of_one r hr1
    have hcn : c < A.nrow := by
      obtain ⟨j, hj, -, hcol_j⟩ := hrc
      rw [← hcol_j]
      exact hcol r hrn j hj
    have h2r : cf2 r = 1 := (hsteps r hr1).1
    -- from the assumed undecided state of c after the round
    rw [hround] at hc0
    unfold fineCF at hc0
    split at hc0
    · exact absurd hc0 (by decide)
    · rename_i hg
      simp only [Bool.and_eq_true, decide_eq_true_eq, List.any_eq_true, not_and] at hg
      obtain ⟨j', hj', hSj', hcolj'⟩ := hsym r hrn c hcn hrc
      refine hg ⟨hcn, hc0⟩ ⟨j', hj', ?_⟩
      rw [hSj', hcolj']
      simp [h2r]
  have hEq3 : invEq A S om (pmisRound A S om cf) := by
    intro r c hrc hr1 hc1
    have hrn : r < A.nrow := hlt_of_one r hr1
    have hcn : c < A.nrow := by
      obtain ⟨j, hj, -, hcol_j⟩ := hrc
      rw [← hcol_j]
      exact hcol r hrn j hj
    obtain ⟨h2r, hrevr, hcr⟩ := hsteps r hr1
    obtain ⟨h2c, hrevc, hcc⟩ := hsteps c hc1
    rcases hcr with hold_r | hnew_r
    · rcases hcc with hold_c | hnew_c
      · exact hEq r c hrc hold_r hold_c
      · -- old coarse r with a freshly-flagged (previously undecided) neighbour:
        -- impossible, the previous round would have made c fine
        have hc0 : cf c = 0 := (promoteW_eq_true A om |>.mp hnew_c).2.1
        exact absurd hc0 (hNb r c hrc hold_r)
    · rcases hcc with hold_c | hnew_c
      · have hr0 : cf r = 0 := (promoteW_eq_true A om |>.mp hnew_r).2.1
        exact absurd hr0 (hNb c r (hsym r hrn c hcn hrc) hold_c)
      · -- both freshly flagged: arbitration compared them in both directions
        obtain ⟨j, hj, hSj, hcolj⟩ := hrc
        have hX : ¬(om r < om c) := by
          intro hlt
          have htrue : revertB A S om w r = true := by
            unfold revertB
            rw [Bool.or_eq_true]
            refine Or.inl ?_
            rw [Bool.and_eq_true]
            refine ⟨hnew_r, ?_⟩
            rw [List.any_eq_true]
            exact ⟨j, hj, by rw [hSj, hcolj]; simp [hnew_c, hlt]⟩
          rw [htrue] at hrevr
          exact absurd hrevr (by decide)
        have hY : ¬(om c < om r) := by
          intro hlt
          have htrue : revertB A S om w c = true := by
            unfold revertB
            rw [Bool.or_eq_true]
            refine Or.inr ?_
            rw [Bool.and_eq_true]
            refine ⟨hnew_c, ?_⟩
            rw [List.any_eq_true]
            refine ⟨r, List.mem_range.mpr hrn, ?_⟩
            simp only [Bool.and_eq_true, List.any_eq_true, decide_eq_true_eq]
            exact ⟨hnew_r, j, hj, ⟨hSj, hcolj⟩, hlt⟩
          rw [htrue] at hrevc
          exact absurd hrevc (by decide)
        exact le_antisymm (not_lt.mp hY) (not_lt.mp hX)
  exact ⟨hEq3, hNb3, hBd3⟩

lemma pmis_iterate_inv (hsym : symS A S) (hcol : colValid A) :
    ∀ k, invEq A S om ((pmisRound A S om)^[k] (fun _ => 0)) ∧
      invNb A S ((pmisRound A S om)^[k] (fun _ => 0)) ∧
      invBd A.nrow ((pmisRound A S om)^[k] (fun _ => 0)) := by
  intro k
  induction k with
  | zero =>
    refine ⟨fun r c _ hr _ => ?_, fun r c _ hr => ?_, fun i _ => rfl⟩
    · rw [Function.iterate_zero_apply] at hr
      exact absurd hr (by simp)
    · rw [Function.iterate_zero_apply] at hr
      exact absurd hr (by simp)
  | succ k ih =>
    rw [Function.iterate_succ_apply']
    exact pmisRound_inv hsym hcol ih.1 ih.2.1 ih.2.2

end Invariant

/-- C2 (amended: the strength mask is additionally assumed symmetric on the
row range).  After any number of PMIS rounds from the all-undecided state —
in particular once the coarsener has converged — two strongly-connected rows
with different weights are never both coarse. -/
theorem pmis_no_unequal_coarse_pair (A : CSRMat) (S : ℕ → Bool) (om : ℕ → ℚ)
    (hsym : symS A S) (hcol : colValid A) (k : ℕ)
    (_hconv : ∀ i < A.nrow, ((pmisRound A S om)^[k] (fun _ => 0)) i ≠ 0)
    (r c : ℕ) (hrc : sedge A S r c) (hom : om r ≠ om c) :
    ¬(((pmisRound A S om)^[k] (fun _ => 0)) r = 1 ∧
        ((pmisRound A S om)^[k] (fun _ => 0)) c = 1) := by
  rintro ⟨hr, hc⟩
  exact hom ((pmis_iterate_inv hsym hcol k).1 r c hrc hr hc)

/-- Counterexample to C2 as stated: after the coarsener converges (two
rounds, no undecided row left), rows `0` and `1` are both coarse although
`1` is a strongly-connected neighbour of `0` and their weights differ. -/
theorem pmis_unequal_coarse_pair_cx :
    (∀ i < cxA2.nrow, ((pmisRound cxA2 cxS2 cxOm2)^[2] (fun _ => 0)) i ≠ 0) ∧
      sedge cxA2 cxS2 0 1 ∧ cxOm2 0 ≠ cxOm2 1 ∧
      ((pmisRound cxA2 cxS2 cxOm2)^[2] (fun _ => 0)) 0 = 1 ∧
      ((pmisRound cxA2 cxS2 cxOm2)^[2] (fun _ => 0)) 1 = 1 := by
  refine ⟨?_, by decide, by decide, by decide, by decide⟩
  intro i hi
  have hi3 : i < 3 := hi
  interval_cases i
  · decide
  · decide
  · decide

/-- Witness for the amended C2 on a symmetric pair: hypotheses hold and the
conclusion is evaluated at rows `0`, `1` after one round. -/
theorem pmis_no_unequal_coarse_pair_witness :
    symS wA1 wS1 ∧ colValid wA1 ∧
      (∀ i < wA1.nrow, ((pmisRound wA1 wS1 wOm1)^[1] (fun _ => 0)) i ≠ 0) ∧
      sedge wA1 wS1 0 1 ∧ wOm1 0 ≠ wOm1 1 ∧
      ¬(((pmisRound wA1 wS1 wOm1)^[1] (fun _ => 0)) 0 = 1 ∧
          ((pmisRound wA1 wS1 wOm1)^[1] (fun _ => 0)) 1 = 1) := by
  have hsym : symS wA1 wS1 := by decide
  have hcol : colValid wA1 := by decide
  have hconv : ∀ i < wA1.nrow, ((pmisRound wA1 wS1 wOm1)^[1] (fun _ => 0)) i ≠ 0 := by
    intro i hi
    have hi2 : i < 2 := hi
    interval_cases i
    · decide
    · decide
  exact ⟨hsym, hcol, hconv, by decide, by decide,
    pmis_no_unequal_coarse_pair wA1 wS1 wOm1 hsym hcol 1 hconv 0 1 (by decide) (by decide)⟩

/-! ## Claims C4 and C5: state discipline of the round and idempotence -/

/-- Rows beyond the launch bound are untouched by a full round (every kernel
starts with an out-of-bounds check). -/
lemma pmisRound_oob (A : CSRMat) (S : ℕ → Bool) (om : ℕ → ℚ) (cf : ℕ → ℤ)
    {i : ℕ} (hi : A.nrow ≤ i) : pmisRound A S om cf i = cf i := by
  have hw : promoteW A.nrow om cf i = false := by
    simp only [promoteW, Bool.and_eq_false_iff]
    left; left
    simpa using by omega
  have h1 : promoteCF A.nrow om cf i = cf i := by
    unfold promoteCF
    rw [if_neg]
    rintro ⟨hlt, -⟩
    omega
  have h2 : arbCF A S om (promoteW A.nrow om cf) (promoteCF A.nrow om cf) i = cf i := by
    unfold arbCF
    rw [revertB_of_w_false A S om hw, if_neg (by simp)]
    exact h1
  unfold pmisRound fineCF
  rw [h2, if_neg]
  simp only [Bool.and_eq_true, decide_eq_true_eq]
  rintro ⟨⟨hlt, -⟩, -⟩
  omega

/-- C4.  Within one PMIS round: a fine row stays fine through every kernel;
the arbitration kernel only reverts rows flagged in `workspace`; a flagged
row was undecided at the start of the round; and every kernel keeps the
classification inside `{0, 1, 2}`. -/
theorem pmis_fine_never_undecided (A : CSRMat) (S : ℕ → Bool) (om : ℕ → ℚ)
    (cf : ℕ → ℤ) (i : ℕ) (hrange : cf i = 0 ∨ cf i = 1 ∨ cf i = 2) :
    (cf i = 2 →
      promoteCF A.nrow om cf i = 2 ∧
      arbCF A S om (promoteW A.nrow om cf) (promoteCF A.nrow om cf) i = 2 ∧
      pmisRound A S om cf i = 2) ∧
    (arbCF A S om (promoteW A.nrow om cf) (promoteCF A.nrow om cf) i = 0 →
      promoteCF A.nrow om cf i = 0 ∨ promoteW A.nrow om cf i = true) ∧
    (promoteW A.nrow om cf i = true → cf i = 0) ∧
    (promoteCF A.nrow om cf i = 0 ∨ promoteCF A.nrow om cf i = 1 ∨
      promoteCF A.nrow om cf i = 2) ∧
    (arbCF A S om (promoteW A.nrow om cf) (promoteCF A.nrow om cf) i = 0 ∨
      arbCF A S om (promoteW A.nrow om cf) (promoteCF A.nrow om cf) i = 1 ∨
      arbCF A S om (promoteW A.nrow om cf) (promoteCF A.nrow om cf) i = 2) ∧
    (pmisRound A S om cf i = 0 ∨ pmisRound A S om cf i = 1 ∨
      pmisRound A S om cf i = 2) := by
  have hfine : cf i = 2 →
      promoteCF A.nrow om cf i = 2 ∧
      arbCF A S om (promoteW A.nrow om cf) (promoteCF A.nrow om cf) i = 2 ∧
      pmisRound A S om cf i = 2 := by
    intro h2
    have hw : promoteW A.nrow om cf i = false := by
      simp [promoteW, h2]
    have hp : promoteCF A.nrow om cf i = 2 := by
      rw [promoteCF_ne A om (by rw [h2]; decide)]
      exact h2
    have ha : arbCF A S om (promoteW A.nrow om cf) (promoteCF A.nrow om cf) i = 2 := by
      unfold arbCF
      rw [revertB_of_w_false A S om hw, if_neg (by simp)]
      exact hp
    refine ⟨hp, ha, ?_⟩
    unfold pmisRound fineCF
    rw [ha, if_neg]
    simp only [Bool.and_eq_true, decide_eq_true_eq]
    rintro ⟨⟨-, h0⟩, -⟩
    exact absurd h0 (by decide)
  have harb : arbCF A S om (promoteW A.nrow om cf) (promoteCF A.nrow om cf) i = 0 →
      promoteCF A.nrow om cf i = 0 ∨ promoteW A.nrow om cf i = true := by
    intro h0
    unfold arbCF at h0
    split at h0
    · rename_i hrev
      right
      unfold revertB at hrev
      rw [Bool.or_eq_true, Bool.and_eq_true, Bool.and_eq_true] at hrev
      rcases hrev with h | h
      · exact h.1
      · exact h.1
    · exact Or.inl h0
  have hflag : promoteW A.nrow om cf i = true → cf i = 0 := fun h =>
    (promoteW_eq_true A om |>.mp h).2.1
  have hrange1 : promoteCF A.nrow om cf i = 0 ∨ promoteCF A.nrow om cf i = 1 ∨
      promoteCF A.nrow om cf i = 2 := by
    unfold promoteCF
    split
    · split
      · exact Or.inr (Or.inl rfl)
      · exact Or.inr (Or.inr rfl)
    · exact hrange
  have hrange2 : arbCF A S om (promoteW A.nrow om cf) (promoteCF A.nrow om cf) i = 0 ∨
      arbCF A S om (promoteW A.nrow om cf) (promoteCF A.nrow om cf) i = 1 ∨
      arbCF A S om (promoteW A.nrow om cf) (promoteCF A.nrow om cf) i = 2 := by
    unfold arbCF
    split
    · exact Or.inl rfl
    · exact hrange1
  have hrange3 : pmisRound A S om cf i = 0 ∨ pmisRound A S om cf i = 1 ∨
      pmisRound A S om cf i = 2 := by
    unfold pmisRound fineCF
    split
    · exact Or.inr (Or.inr rfl)
    · exact hrange2
  exact ⟨hfine, harb, hflag, hrange1, hrange2, hrange3⟩

/-- Witness for C4, evaluated on the concrete pair instance at a fine row:
after one round row `1` of `wA1` is fine and stays fine. -/
theorem pmis_fine_never_undecided_witness :
    (((pmisRound wA1 wS1 wOm1)^[1] (fun _ => 0)) 1 = 2) ∧
      pmisRound wA1 wS1 wOm1 ((pmisRound wA1 wS1 wOm1)^[1] (fun _ => 0)) 1 = 2 := by
  refine ⟨by decide, ?_⟩
  exact (pmis_fine_never_undecided wA1 wS1 wOm1 _ 1
    (by decide) |>.1 (by decide)).2.2

/-- C5.  On an already-converged classification (no undecided row), a full
PMIS round changes nothing: `cf` is untouched at every index, the workspace
is left all-false, the convergence flag stays clear, and a second round
equals the first. -/
theorem pmis_converged_noop (A : CSRMat) (S : ℕ → Bool) (om : ℕ → ℚ)
    (cf : ℕ → ℤ) (hconv : ∀ i < A.nrow, cf i ≠ 0) :
    (∀ i, pmisRound A S om cf i = cf i) ∧
      (∀ i < A.nrow, promoteW A.nrow om cf i = false) ∧
      checkUnd A.nrow cf = false ∧
      (∀ i, pmisRound A S om (pmisRound A S om cf) i = pmisRound A S om cf i) := by
  have hid : ∀ i, pmisRound A S om cf i = cf i := by
    intro i
    by_cases hi : i < A.nrow
    · exact pmisRound_preserve A S om (hconv i hi)
    · exact pmisRound_oob A S om cf (by omega)
  have hfun : pmisRound A S om cf = cf := funext hid
  refine ⟨hid, ?_, ?_, ?_⟩
  · intro i hi
    simp [promoteW, hconv i hi]
  · rw [checkUnd, List.any_eq_false]
    intro i hi
    simp only [decide_eq_true_eq]
    exact hconv i (List.mem_range.mp hi)
  · intro i
    rw [hfun]
    exact hid i

/-- Witness for C5 on the converged state of the concrete pair instance. -/
theorem pmis_converged_noop_witness :
    (∀ i < wA1.nrow, ((pmisRound wA1 wS1 wOm1)^[1] (fun _ => 0)) i ≠ 0) ∧
      pmisRound wA1 wS1 wOm1 ((pmisRound wA1 wS1 wOm1)^[1] (fun _ => 0)) 0 =
        ((pmisRound wA1 wS1 wOm1)^[1] (fun _ => 0)) 0 ∧
      checkUnd wA1.nrow ((pmisRound wA1 wS1 wOm1)^[1] (fun _ => 0)) = false := by
  have hconv : ∀ i < wA1.nrow, ((pmisRound wA1 wS1 wOm1)^[1] (fun _ => 0)) i ≠ 0 := by
    intro i hi
    have hi2 : i < 2 := hi
    interval_cases i
    · decide
    · decide
  obtain ⟨hid, -, hflag, -⟩ := pmis_converged_noop wA1 wS1 wOm1 _ hconv
  exact ⟨hconv, hid 0, hflag⟩

/-! ## Claim C3: the strength-of-connection classifier -/

section FoldFacts

lemma foldl_max_exch (t : List ℚ) : ∀ a b : ℚ, t.foldl max (max a b) = max a (t.foldl max b) := by
  induction t with
  | nil => intro a b; rfl
  | cons c t ih =>
    intro a b
    simp only [List.foldl_cons]
    rw [max_assoc, ih]

lemma foldl_min_exch (t : List ℚ) : ∀ a b : ℚ, t.foldl min (min a b) = min a (t.foldl min b) := by
  induction t with
  | nil => intro a b; rfl
  | cons c t ih =>
    intro a b
    simp only [List.foldl_cons]
    rw [min_assoc, ih]

lemma le_foldl_max (t : List ℚ) : ∀ a : ℚ, a ≤ t.foldl max a := by
  induction t with
  | nil => intro a; exact le_refl a
  | cons c t ih =>
    intro a
    simp only [List.foldl_cons]
    exact le_trans (le_max_left a c) (ih (max a c))

lemma foldl_min_le (t : List ℚ) : ∀ a : ℚ, t.foldl min a ≤ a := by
  induction t with
  | nil => intro a; exact le_refl a
  | cons c t ih =>
    intro a
    simp only [List.foldl_cons]
    exact le_trans (ih (min a c)) (min_le_left a c)

lemma mem_le_foldl_max (t : List ℚ) : ∀ (a x : ℚ), x ∈ t → x ≤ t.foldl max a := by
  induction t with
  | nil => intro a x hx; exact absurd hx (List.not_mem_nil x)
  | cons c t ih =>
    intro a x hx
    simp only [List.foldl_cons]
    rcases List.mem_cons.mp hx with h | h
    · subst h
      exact le_trans (le_max_right a x) (le_foldl_max t (max a x))
    · exact ih (max a c) x h

lemma foldl_min_le_mem (t : List ℚ) : ∀ (a x : ℚ), x ∈ t → t.foldl min a ≤ x := by
  induction t with
  | nil => intro a x hx; exact absurd hx (List.not_mem_nil x)
  | cons c t ih =>
    intro a x hx
    simp only [List.foldl_cons]
    rcases List.mem_cons.mp hx with h | h
    · subst h
      exact le_trans (foldl_min_le t (min a x)) (min_le_right a x)
    · exact ih (min a c) x h

lemma listMax_mem_le {l : List ℚ} {x : ℚ} (hx : x ∈ l) : x ≤ listMax l := by
  cases l with
  | nil => exact absurd hx (List.not_mem_nil x)
  | cons v t =>
    rw [listMax]
    rcases List.mem_cons.mp hx with h | h
    · subst h
      exact le_foldl_max t x
    · exact mem_le_foldl_max t v x h

lemma listMin_le_mem {l : List ℚ} {x : ℚ} (hx : x ∈ l) : listMin l ≤ x := by
  cases l with
  | nil => exact absurd hx (List.not_mem_nil x)
  | cons v t =>
    rw [listMin]
    rcases List.mem_cons.mp hx with h | h
    · subst h
      exact foldl_min_le t x
    · exact foldl_min_le_mem t v x h

lemma foldl_max_zero {l : List ℚ} (hl : l ≠ []) : l.foldl max 0 = max 0 (listMax l) := by
  cases l with
  | nil => exact absurd rfl hl
  | cons v t =>
    rw [listMax, List.foldl_cons, ← foldl_max_exch]

lemma foldl_min_zero {l : List ℚ} (hl : l ≠ []) : l.foldl min 0 = min 0 (listMin l) := by
  cases l with
  | nil => exact absurd rfl hl
  | cons v t =>
    rw [listMin, List.foldl_cons, ← foldl_min_exch]

end FoldFacts

section ClassifierLemmas

variable (A : CSRMat)

lemma maxOff_filter (r : ℕ) (l : List ℕ) : ∀ a : ℚ,
    l.foldl (fun m j => if A.col j = r then m else max m (A.val j)) a =
      ((l.filter (fun j => A.col j ≠ r)).map A.val).foldl max a := by
  induction l with
  | nil => intro a; rfl
  | cons x t ih =>
    intro a
    by_cases h : A.col x = r
    · simp [h, ih]
    · simp [h, ih]

lemma minOff_filter (r : ℕ) (l : List ℕ) : ∀ a : ℚ,
    l.foldl (fun m j => if A.col j = r then m else min m (A.val j)) a =
      ((l.filter (fun j => A.col j ≠ r)).map A.val).foldl min a := by
  induction l with
  | nil => intro a; rfl
  | cons x t ih =>
    intro a
    by_cases h : A.col x = r
    · simp [h, ih]
    · simp [h, ih]

lemma maxOff_eq (r : ℕ) : maxOff A r = (offVals A r).foldl max 0 :=
  maxOff_filter A r (rowJ A r) 0

lemma minOff_eq (r : ℕ) : minOff A r = (offVals A r).foldl min 0 :=
  minOff_filter A r (rowJ A r) 0

lemma diag_fold_none (r : ℕ) (l : List ℕ) (h : ∀ j ∈ l, A.col j ≠ r) : ∀ s : Bool,
    l.foldl (fun s j => if A.col j = r then decide (A.val j < 0) else s) s = s := by
  induction l with
  | nil => intro s; rfl
  | cons x t ih =>
    intro s
    rw [List.foldl_cons, if_neg (h x (List.mem_cons_self x t))]
    exact ih (fun j hj => h j (List.mem_cons_of_mem x hj)) s

lemma diag_fold_unique (r j0 : ℕ) (l : List ℕ) (hcol : A.col j0 = r) :
    ∀ s : Bool, j0 ∈ l → (∀ j ∈ l, A.col j = r → j = j0) →
    l.foldl (fun s j => if A.col j = r then decide (A.val j < 0) else s) s =
      decide (A.val j0 < 0) := by
  induction l with
  | nil => intro s h; exact absurd h (List.not_mem_nil j0)
  | cons x t ih =>
    intro s hmem huniq
    by_cases hx : A.col x = r
    · have hxj0 : x = j0 := huniq x (List.mem_cons_self x t) hx
      subst hxj0
      rw [List.foldl_cons, if_pos hx]
      by_cases hxt : x ∈ t
      · exact ih _ hxt (fun j hj hcj => huniq j (List.mem_cons_of_mem x hj) hcj)
      · refine diag_fold_none A r t (fun j hj hcj => ?_) _
        exact hxt ((huniq j (List.mem_cons_of_mem x hj) hcj) ▸ hj)
    · have hmt : j0 ∈ t := by
        rcases List.mem_cons.mp hmem with h | h
        · exact absurd (h ▸ hcol) hx
        · exact h
      rw [List.foldl_cons, if_neg hx]
      exact ih _ hmt (fun j hj hcj => huniq j (List.mem_cons_of_mem x hj) hcj)

/-- On a row with at most one diagonal entry, the kernel's `sign` flag
agrees with the specification's "the diagonal is negative". -/
lemma diagNeg_eq_spec (r : ℕ)
    (hd : ∀ j1 ∈ rowJ A r, ∀ j2 ∈ rowJ A r, A.col j1 = r → A.col j2 = r → j1 = j2) :
    diagNeg A r = specNegDiag A r := by
  by_cases hex : ∃ j ∈ rowJ A r, A.col j = r
  · obtain ⟨j0, hj0, hcol⟩ := hex
    have h1 : diagNeg A r = decide (A.val j0 < 0) :=
      diag_fold_unique A r j0 (rowJ A r) hcol false hj0
        (fun j hj hcj => hd j hj j0 hj0 hcj hcol)
    rw [h1]
    cases hv : decide (A.val j0 < 0)
    · rw [eq_comm, Bool.eq_false_iff]
      intro hc
      rw [specNegDiag, List.any_eq_true] at hc
      obtain ⟨j, hj, hcj⟩ := hc
      rw [Bool.and_eq_true, decide_eq_true_eq, decide_eq_true_eq] at hcj
      have := hd j hj j0 hj0 hcj.1 hcol
      subst this
      rw [decide_eq_false_iff_not] at hv
      exact hv hcj.2
    · rw [eq_comm, specNegDiag, List.any_eq_true]
      exact ⟨j0, hj0, by simp [hcol, decide_eq_true_eq.mp hv]⟩
  · push_neg at hex
    rw [diagNeg, diag_fold_none A r (rowJ A r) hex false]
    rw [eq_comm, Bool.eq_false_iff]
    intro hc
    rw [specNegDiag, List.any_eq_true] at hc
    obtain ⟨j, hj, hcj⟩ := hc
    rw [Bool.and_eq_true, decide_eq_true_eq] at hcj
    exact hex j hj hcj.1

lemma mem_offVals {r j : ℕ} (hj : j ∈ rowJ A r) (hne : A.col j ≠ r) :
    A.val j ∈ offVals A r := by
  rw [offVals, List.mem_map]
  exact ⟨j, List.mem_filter.mpr ⟨hj, by simpa using hne⟩, rfl⟩

/-- The zero-clamped extremum of the kernel classifies exactly as the true
extremum of the specification (for entries of the row itself). -/
lemma lt_cond_iff {eps : ℚ} (_heps0 : 0 < eps) (heps1 : eps < 1) {r j : ℕ}
    (hd : ∀ j1 ∈ rowJ A r, ∀ j2 ∈ rowJ A r, A.col j1 = r → A.col j2 = r → j1 = j2)
    (hj : j ∈ rowJ A r) (hne : A.col j ≠ r) :
    (A.val j < condCode A eps r ↔ A.val j < specCond A eps r) := by
  have hmem : A.val j ∈ offVals A r := mem_offVals A hj hne
  have hnil : offVals A r ≠ [] := List.ne_nil_of_mem hmem
  have hflagEq : diagNeg A r = specNegDiag A r := diagNeg_eq_spec A r hd
  by_cases hflag : specNegDiag A r = true
  · have hcode : condCode A eps r = eps * max 0 (listMax (offVals A r)) := by
      rw [condCode, hflagEq, hflag, if_pos rfl, maxOff_eq, foldl_max_zero hnil]
    have hspec : specCond A eps r = eps * listMax (offVals A r) := by
      rw [specCond, hflag, if_pos rfl]
    rw [hcode, hspec]
    have hvM : A.val j ≤ listMax (offVals A r) := listMax_mem_le hmem
    rcases le_or_lt 0 (listMax (offVals A r)) with hM0 | hM0
    · rw [max_eq_right hM0]
    · rw [max_eq_left hM0.le]
      have hMe : listMax (offVals A r) < eps * listMax (offVals A r) := by
        nlinarith [mul_pos (sub_pos.mpr heps1) (neg_pos.mpr hM0)]
      refine iff_of_true ?_ ?_
      · rw [mul_zero]
        linarith
      · linarith
  · have hf : specNegDiag A r = false := Bool.eq_false_iff.mpr hflag
    have hcode : condCode A eps r = eps * min 0 (listMin (offVals A r)) := by
      rw [condCode, hflagEq, hf, if_neg (by decide), minOff_eq, foldl_min_zero hnil]
    have hspec : specCond A eps r = eps * listMin (offVals A r) := by
      rw [specCond, hf, if_neg (by decide)]
    rw [hcode, hspec]
    have hvm : listMin (offVals A r) ≤ A.val j := listMin_le_mem hmem
    rcases le_or_lt (listMin (offVals A r)) 0 with hm0 | hm0
    · rw [min_eq_right hm0]
    · rw [min_eq_left hm0.le]
      have hme : eps * listMin (offVals A r) < listMin (offVals A r) := by
        nlinarith [mul_pos (sub_pos.mpr heps1) hm0]
      refine iff_of_false ?_ ?_
      · rw [mul_zero, not_lt]
        linarith
      · rw [not_lt]
        linarith

lemma rowJ_bounds {r j : ℕ} (hj : j ∈ rowJ A r) :
    A.ptr r ≤ j ∧ j < A.ptr (r + 1) := by
  rw [rowJ, List.mem_range'_1] at hj
  omega

lemma rowJ_disjoint
    (hmono : ∀ b ≤ A.nrow, ∀ a ≤ b, A.ptr a ≤ A.ptr b) {r r' j : ℕ}
    (hr : r < A.nrow) (hr' : r' < A.nrow) (hne : r' ≠ r) (hj : j ∈ rowJ A r) :
    j ∉ rowJ A r' := by
  intro hj'
  obtain ⟨h1, h2⟩ := rowJ_bounds A hj
  obtain ⟨h1', h2'⟩ := rowJ_bounds A hj'
  rcases Nat.lt_or_ge r r' with hlt | hge
  · have := hmono r' (by omega) (r + 1) (by omega)
    omega
  · have hlt : r' < r := by omega
    have := hmono r (by omega) (r' + 1) (by omega)
    omega

/-- The strength mask cell `S[j]` for `j` inside row `r` is written only by
the wavefront of row `r` (rows own disjoint nonzero ranges). -/
lemma classifierS_eq {eps : ℚ}
    (hmono : ∀ b ≤ A.nrow, ∀ a ≤ b, A.ptr a ≤ A.ptr b) {r j : ℕ}
    (hr : r < A.nrow) (hj : j ∈ rowJ A r) :
    classifierS A eps j = strongB A eps r j := by
  unfold classifierS
  cases hs : strongB A eps r j
  · rw [List.any_eq_false]
    intro r' hr'
    rw [List.mem_range] at hr'
    by_cases hrr : r' = r
    · subst hrr
      simp [hs]
    · simp [rowJ_disjoint A hmono hr hr' hrr hj]
  · rw [List.any_eq_true]
    exact ⟨r, List.mem_range.mpr hr, by simp [hj, hs]⟩

lemma bump_foldl (colf : ℕ → ℕ) (l : List ℕ) : ∀ (g : ℕ → ℚ) (c : ℕ),
    (l.foldl (fun f j => Function.update f (colf j) (f (colf j) + 1)) g) c =
      g c + ((l.filter (fun j => colf j = c)).length : ℚ) := by
  induction l with
  | nil => intro g c; simp
  | cons x t ih =>
    intro g c
    rw [List.foldl_cons, ih]
    by_cases hx : colf x = c
    · rw [Function.update_apply, if_pos hx.symm, hx]
      have hfe : (x :: t).filter (fun j => colf j = c) =
          x :: t.filter (fun j => colf j = c) := by
        simp [List.filter_cons, hx]
      rw [hfe, List.length_cons]
      push_cast
      ring
    · rw [Function.update_apply, if_neg (fun hc => hx hc.symm)]
      have hfe : (x :: t).filter (fun j => colf j = c) =
          t.filter (fun j => colf j = c) := by
        simp [List.filter_cons, hx]
      rw [hfe]

end ClassifierLemmas

/-- C3.  Strength classifier: a nonzero `j` of row `r` is marked strong iff
its column differs from `r` and its value is strictly below the
specification's threshold (ε times the true row extremum selected by the
diagonal sign), and the influence weight at any column `c` is the initial
seed plus exactly one for each strong nonzero whose column index is `c`. -/
theorem classifier_spec (A : CSRMat) (eps : ℚ) (om : ℕ → ℚ)
    (heps0 : 0 < eps) (heps1 : eps < 1)
    (hmono : ∀ b ≤ A.nrow, ∀ a ≤ b, A.ptr a ≤ A.ptr b)
    (hd : ∀ r < A.nrow, ∀ j1 ∈ rowJ A r, ∀ j2 ∈ rowJ A r,
      A.col j1 = r → A.col j2 = r → j1 = j2)
    (r j c : ℕ) (hr : r < A.nrow) (hj : j ∈ rowJ A r) :
    (classifierS A eps j = true ↔ A.col j ≠ r ∧ A.val j < specCond A eps r) ∧
      classifierOmega A eps om c =
        om c + (((strongList A eps).filter (fun j2 => A.col j2 = c)).length : ℚ) := by
  constructor
  · rw [classifierS_eq A hmono hr hj, strongB]
    rw [Bool.and_eq_true, decide_eq_true_eq, decide_eq_true_eq]
    exact and_congr_right fun hne => lt_cond_iff A heps0 heps1 (hd r hr) hj hne
  · exact bump_foldl A.col (strongList A eps) om c

/-- Witness for C3 on the concrete pair instance with ε = 1/2: nonzero `1`
(value `-1`, threshold `-1/2`) is strong, and ω at column `0` receives
exactly one increment. -/
theorem classifier_spec_witness :
    (0 : ℚ) < 1 / 2 ∧ (1 : ℚ) / 2 < 1 ∧
      classifierS wA1 (1 / 2) 1 = true ∧
      classifierOmega wA1 (1 / 2) (fun _ => 0) 0 = 1 := by
  have hc0 : condCode wA1 (1 / 2) 0 = (1 / 2 : ℚ) * (-1) := by
    rw [condCode, show diagNeg wA1 0 = false from by decide, if_neg (by decide),
      show minOff wA1 0 = -1 from by decide]
  have hc1 : condCode wA1 (1 / 2) 1 = (1 / 2 : ℚ) * (-1) := by
    rw [condCode, show diagNeg wA1 1 = false from by decide, if_neg (by decide),
      show minOff wA1 1 = -1 from by decide]
  have hs0 : strongB wA1 (1 / 2) 0 0 = false := by
    simp [strongB, wA1]
  have hs1 : strongB wA1 (1 / 2) 0 1 = true := by
    have hval : wA1.val 1 < condCode wA1 (1 / 2) 0 := by
      rw [hc0, show wA1.val 1 = -1 from rfl]
      norm_num
    rw [strongB, decide_eq_true hval]
    decide
  have hs2 : strongB wA1 (1 / 2) 1 2 = true := by
    have hval : wA1.val 2 < condCode wA1 (1 / 2) 1 := by
      rw [hc1, show wA1.val 2 = -1 from rfl]
      norm_num
    rw [strongB, decide_eq_true hval]
    decide
  have hs3 : strongB wA1 (1 / 2) 1 3 = false := by
    simp [strongB, wA1]
  have hlist : strongList wA1 (1 / 2) = [1, 2] := by
    rw [strongList, show List.range wA1.nrow = [0, 1] from rfl]
    simp only [List.flatMap_cons, List.flatMap_nil, show rowJ wA1 0 = [0, 1] from rfl,
      show rowJ wA1 1 = [2, 3] from rfl, List.filter_cons, List.filter_nil]
    rw [hs0, hs1, hs2, hs3]
    simp
  obtain ⟨hiff, homega⟩ := classifier_spec wA1 (1 / 2) (fun _ => 0)
    (by norm_num) (by norm_num) (by decide) (by decide) 0 1 0 (by decide) (by decide)
  refine ⟨by norm_num, by norm_num, ?_, ?_⟩
  · refine hiff.mpr ⟨by decide, ?_⟩
    have hspec : specCond wA1 (1 / 2) 0 = (1 / 2 : ℚ) * (-1) := by
      rw [specCond, show specNegDiag wA1 0 = false from by decide, if_neg (by decide),
        show offVals wA1 0 = [-1] from rfl, listMin, List.foldl_nil]
    rw [hspec, show wA1.val 1 = -1 from rfl]
    norm_num
  · rw [homega, hlist, show ([1, 2].filter (fun j2 => wA1.col j2 = 0)).length = 1 from rfl]
    norm_num

/-! ## Claim C10: the two direct-interpolation passes agree -/

/-- The strict interior band test of the fill kernel is the exact Boolean
complement of the count kernel's keep test. -/
lemma band_complement (v a b : ℚ) :
    (!(decide (a < v) && decide (v < b))) = (decide (v ≤ a) || decide (b ≤ v)) := by
  by_cases h1 : v ≤ a
  · simp [h1, not_lt.mpr h1]
  · by_cases h2 : b ≤ v
    · simp [h1, h2, not_lt.mpr h2, not_le.mp h1]
    · simp [h1, h2, not_le.mp h1, not_le.mp h2]

/-- C10.  For every non-coarse row, the fill kernel writes exactly
`row_nnz` entries into P: its skip condition (`Amin < val < Amax`) is the
complement of the count condition (`val ≤ Amin` or `val ≥ Amax`), so the
writes exactly fill the row's slice. -/
theorem direct_fill_count_eq (A : CSRMat) (S : ℕ → Bool) (cf : ℕ → ℤ) (r : ℕ)
    (hr : cf r ≠ 1) :
    (dirFillJs A S cf r).length = dirRowNnz A S cf r := by
  rw [dirRowNnz, if_neg hr, dirFillJs]
  refine congrArg List.length (List.filter_congr ?_)
  intro j hj
  rw [band_complement]

/-- Witness for C10 on the concrete instance, at the non-coarse row `0`. -/
theorem direct_fill_count_eq_witness :
    cxCf6 0 ≠ 1 ∧ (dirFillJs cxA6 cxS6 cxCf6 0).length = dirRowNnz cxA6 cxS6 cxCf6 0 :=
  ⟨by decide, direct_fill_count_eq cxA6 cxS6 cxCf6 0 (by decide)⟩

/-! ## Claim C6: sortedness of the produced rows of P -/

/-- Counterexample to C6 as stated: the direct fill kernel replays the
input row's storage order, so with an unsorted input row (columns `2` then
`1`, both strong coarse neighbours surviving the band test) the written P
columns are `[1, 0]`, which is not strictly increasing — even though `f2c`
is the canonical (monotone) coarse numbering. -/
theorem direct_fill_unsorted_cx :
    dirFillCols cxA6 cxS6 cxCf6 cxF2c6 0 = [1, 0] ∧
      ¬ List.Pairwise (fun a b => a < b) (dirFillCols cxA6 cxS6 cxCf6 cxF2c6 0) := by
  have hmin : dirAminRaw cxA6 cxS6 cxCf6 0 = -1 := by decide
  have ha1 : ¬(dirAmin cxA6 cxS6 cxCf6 0 < cxA6.val 1) := by
    rw [dirAmin, hmin, show cxA6.val 1 = -1 from rfl]
    norm_num
  have ha2 : ¬(dirAmin cxA6 cxS6 cxCf6 0 < cxA6.val 2) := by
    rw [dirAmin, hmin, show cxA6.val 2 = -1 from rfl]
    norm_num
  have hlist : dirFillCols cxA6 cxS6 cxCf6 cxF2c6 0 = [1, 0] := by
    rw [dirFillCols, dirFillJs, show rowJ cxA6 0 = [0, 1, 2] from rfl]
    simp only [List.filter_cons, List.filter_nil]
    rw [decide_eq_false ha1, decide_eq_false ha2]
    simp [cxS6, cxCf6, cxA6, cxF2c6]
  refine ⟨hlist, ?_⟩
  rw [hlist]
  decide

/-! ## Claim C7: the degree estimate dominates the deduplicated count -/

lemma nnzFold_spec (l : List ℕ) : ∀ (acc : List ℕ) (k : ℕ),
    (l.foldl (fun p c => if c ∈ p.1 then p else (p.1 ++ [c], p.2 + 1)) (acc, k)).1 =
      l.foldl insertD acc ∧
    (l.foldl (fun p c => if c ∈ p.1 then p else (p.1 ++ [c], p.2 + 1)) (acc, k)).2 +
        acc.length =
      (l.foldl insertD acc).length + k := by
  induction l with
  | nil =>
    intro acc k
    refine ⟨rfl, ?_⟩
    simp only [List.foldl_nil]
    omega
  | cons c t ih =>
    intro acc k
    simp only [List.foldl_cons, insertD]
    by_cases hc : c ∈ acc
    · rw [if_pos hc, if_pos hc]
      exact ih acc k
    · rw [if_neg hc, if_neg hc]
      refine ⟨(ih (acc ++ [c]) (k + 1)).1, ?_⟩
      have h2 := (ih (acc ++ [c]) (k + 1)).2
      rw [List.length_append] at h2
      simp only [List.length_singleton] at h2
      omega

lemma foldl_insertD_length_le (l : List ℕ) : ∀ acc : List ℕ,
    (l.foldl insertD acc).length ≤ acc.length + l.length := by
  induction l with
  | nil => intro acc; simp
  | cons c t ih =>
    intro acc
    rw [List.foldl_cons]
    refine le_trans (ih (insertD acc c)) ?_
    have : (insertD acc c).length ≤ acc.length + 1 := by
      rw [insertD]
      split
      · omega
      · rw [List.length_append]
        simp
    simp only [List.length_cons]
    omega

/-- C7.  For every row and both values of the `FF1` flag, the
duplicate-counting estimate of the `max` kernel dominates the deduplicated
count of the `nnz` kernel (the two kernels perform the same traversal, and
`insert` returns `1` at most once per distinct key). -/
theorem extpi_max_ge_nnz (A : CSRMat) (S : ℕ → Bool) (cf : ℕ → ℤ) (FF1 : Bool)
    (i : ℕ) : rowNnzExt A S cf FF1 i ≤ rowMaxExt A S cf FF1 i := by
  rw [rowNnzExt, rowMaxExt]
  by_cases hc : cf i = 1
  · rw [if_pos hc, if_pos hc]
  · rw [if_neg hc, if_neg hc]
    have h2 := (nnzFold_spec (visitRow A S cf FF1 i) [] 0).2
    simp only [List.length_nil, Nat.add_zero] at h2
    have h3 := foldl_insertD_length_le (visitRow A S cf FF1 i) []
    simp only [List.length_nil, Nat.zero_add] at h3
    rw [nnzFold] at *
    omega

/-! ## Claim C6: sortedness of the extended+i output rows -/

lemma insertD_nodup {acc : List ℕ} {c : ℕ} (h : acc.Nodup) : (insertD acc c).Nodup := by
  rw [insertD]
  split
  · exact h
  · rename_i hc
    simp [List.nodup_append, h, hc]

lemma insertD_mem {acc : List ℕ} {c x : ℕ} (h : x ∈ insertD acc c) : x ∈ acc ∨ x = c := by
  rw [insertD] at h
  split at h
  · exact Or.inl h
  · rcases List.mem_append.mp h with h1 | h1
    · exact Or.inl h1
    · exact Or.inr (List.mem_singleton.mp h1)

lemma foldl_insertD_nodup (l : List ℕ) : ∀ acc : List ℕ, acc.Nodup →
    (l.foldl insertD acc).Nodup := by
  induction l with
  | nil => exact fun acc h => h
  | cons c t ih =>
    intro acc h
    rw [List.foldl_cons]
    exact ih (insertD acc c) (insertD_nodup h)

lemma foldl_insertD_mem (l : List ℕ) : ∀ (acc : List ℕ) (x : ℕ),
    x ∈ l.foldl insertD acc → x ∈ acc ∨ x ∈ l := by
  induction l with
  | nil => exact fun acc x h => Or.inl h
  | cons c t ih =>
    intro acc x h
    rw [List.foldl_cons] at h
    rcases ih (insertD acc c) x h with h1 | h1
    · rcases insertD_mem h1 with h2 | h2
      · exact Or.inl h2
      · exact Or.inr (h2 ▸ List.mem_cons_self c t)
    · exact Or.inr (List.mem_cons_of_mem c h1)

lemma innerVisit_coarse (A : CSRMat) (S : ℕ → Bool) (cf : ℕ → ℤ) (FF1 : Bool)
    (cj : ℕ) (l : List ℕ) : ∀ x ∈ innerVisit A S cf FF1 cj l, cf x = 1 := by
  induction l with
  | nil => intro x hx; exact absurd hx (List.not_mem_nil x)
  | cons e t ih =>
    intro x hx
    rw [innerVisit] at hx
    split at hx
    · exact ih x hx
    · split at hx
      · exact ih x hx
      · split at hx
        · rename_i hcf
          split at hx
          · rw [List.mem_singleton.mp hx]
            exact hcf
          · rcases List.mem_cons.mp hx with h | h
            · rw [h]
              exact hcf
            · exact ih x h
        · exact ih x hx

lemma visitRow_coarse (A : CSRMat) (S : ℕ → Bool) (cf : ℕ → ℤ) (FF1 : Bool)
    (i : ℕ) : ∀ x ∈ visitRow A S cf FF1 i, cf x = 1 := by
  intro x hx
  rw [visitRow, List.mem_flatMap] at hx
  obtain ⟨j, hj, hx⟩ := hx
  split at hx
  · exact absurd hx (List.not_mem_nil x)
  · split at hx
    · exact absurd hx (List.not_mem_nil x)
    · split at hx
      · rename_i hcf
        rw [List.mem_singleton.mp hx]
        exact hcf
      · exact innerVisit_coarse A S cf FF1 (A.col j) (rowJ A (A.col j)) x hx

lemma chatList_nodup (A : CSRMat) (S : ℕ → Bool) (cf : ℕ → ℤ) (FF1 : Bool)
    (i : ℕ) : (chatList A S cf FF1 i).Nodup :=
  foldl_insertD_nodup (visitRow A S cf FF1 i) [] List.nodup_nil

lemma chatList_coarse (A : CSRMat) (S : ℕ → Bool) (cf : ℕ → ℤ) (FF1 : Bool)
    (i : ℕ) : ∀ x ∈ chatList A S cf FF1 i, cf x = 1 := by
  intro x hx
  rcases foldl_insertD_mem (visitRow A S cf FF1 i) [] x hx with h | h
  · exact absurd h (List.not_mem_nil x)
  · exact visitRow_coarse A S cf FF1 i x h

/-! Rank-based output sort of the fill kernel. -/

lemma rankOf_eq_card {keys : List ℕ} (hnd : keys.Nodup) (k : ℕ) :
    rankOf keys k = (keys.toFinset.filter (fun x => x < k)).card := by
  rw [rankOf, ← List.toFinset_card_of_nodup (hnd.filter _), List.toFinset_filter]
  simp

lemma rankOf_strict_mono {keys : List ℕ} (hnd : keys.Nodup) {k1 k2 : ℕ}
    (h1 : k1 ∈ keys) (hlt : k1 < k2) : rankOf keys k1 < rankOf keys k2 := by
  rw [rankOf_eq_card hnd, rankOf_eq_card hnd]
  refine Finset.card_lt_card ⟨fun x hx => ?_, fun hsub => ?_⟩
  · rw [Finset.mem_filter] at hx ⊢
    exact ⟨hx.1, lt_trans hx.2 hlt⟩
  · have : k1 ∈ keys.toFinset.filter (fun x => x < k1) :=
      hsub (Finset.mem_filter.mpr ⟨List.mem_toFinset.mpr h1, hlt⟩)
    rw [Finset.mem_filter] at this
    exact absurd this.2 (lt_irrefl k1)

lemma rankOf_lt_length {keys : List ℕ} (hnd : keys.Nodup) {k : ℕ} (hk : k ∈ keys) :
    rankOf keys k < keys.length := by
  rw [rankOf_eq_card hnd, ← List.toFinset_card_of_nodup hnd]
  refine Finset.card_lt_card ⟨Finset.filter_subset _ _, fun hsub => ?_⟩
  have : k ∈ keys.toFinset.filter (fun x => x < k) :=
    hsub (List.mem_toFinset.mpr hk)
  rw [Finset.mem_filter] at this
  exact absurd this.2 (lt_irrefl k)

lemma rankOf_inj {keys : List ℕ} (hnd : keys.Nodup) {k1 k2 : ℕ}
    (h1 : k1 ∈ keys) (h2 : k2 ∈ keys) (heq : rankOf keys k1 = rankOf keys k2) :
    k1 = k2 := by
  rcases lt_trichotomy k1 k2 with h | h | h
  · exact absurd heq (Nat.ne_of_lt (rankOf_strict_mono hnd h1 h))
  · exact h
  · exact absurd heq.symm (Nat.ne_of_lt (rankOf_strict_mono hnd h2 h))

lemma rankOf_surj {keys : List ℕ} (hnd : keys.Nodup) {p : ℕ}
    (hp : p < keys.length) : ∃ k ∈ keys, rankOf keys k = p := by
  classical
  have himg : keys.toFinset.image (rankOf keys) = Finset.range keys.length := by
    refine Finset.eq_of_subset_of_card_le ?_ ?_
    · intro q hq
      rw [Finset.mem_image] at hq
      obtain ⟨k, hk, hq⟩ := hq
      rw [Finset.mem_range, ← hq]
      exact rankOf_lt_length hnd (List.mem_toFinset.mp hk)
    · rw [Finset.card_range, Finset.card_image_of_injOn, List.toFinset_card_of_nodup hnd]
      intro a ha b hb hab
      exact rankOf_inj hnd (List.mem_toFinset.mp ha) (List.mem_toFinset.mp hb) hab
  have : p ∈ keys.toFinset.image (rankOf keys) := by
    rw [himg, Finset.mem_range]
    exact hp
  rw [Finset.mem_image] at this
  obtain ⟨k, hk, hkp⟩ := this
  exact ⟨k, List.mem_toFinset.mp hk, hkp⟩

lemma foldl_update_not_mem (pos : ℕ → ℕ) (valf : ℕ → ℕ) (l : List ℕ) :
    ∀ (g : ℕ → ℕ) (q : ℕ), (∀ x ∈ l, pos x ≠ q) →
    (l.foldl (fun acc x => Function.update acc (pos x) (valf x)) g) q = g q := by
  induction l with
  | nil => intro g q _; rfl
  | cons x t ih =>
    intro g q hq
    rw [List.foldl_cons]
    rw [ih _ q (fun y hy => hq y (List.mem_cons_of_mem x hy))]
    rw [Function.update_apply, if_neg]
    intro hc
    exact hq x (List.mem_cons_self x t) hc.symm

lemma foldl_update_eq (pos : ℕ → ℕ) (valf : ℕ → ℕ) (l : List ℕ) :
    ∀ (g : ℕ → ℕ) (k : ℕ), k ∈ l → l.Nodup →
    (∀ a ∈ l, ∀ b ∈ l, pos a = pos b → a = b) →
    (l.foldl (fun acc x => Function.update acc (pos x) (valf x)) g) (pos k) = valf k := by
  induction l with
  | nil => intro g k hk; exact absurd hk (List.not_mem_nil k)
  | cons x t ih =>
    intro g k hk hnd hinj
    rw [List.foldl_cons]
    rcases List.mem_cons.mp hk with hkx | hkt
    · subst hkx
      have hno : ∀ y ∈ t, pos y ≠ pos k := by
        intro y hy hc
        have := hinj y (List.mem_cons_of_mem k hy) k (List.mem_cons_self k t) hc
        rw [this] at hy
        exact (List.nodup_cons.mp hnd).1 hy
      rw [foldl_update_not_mem pos valf t _ _ hno]
      rw [Function.update_apply, if_pos rfl]
    · exact ih _ k hkt (List.nodup_cons.mp hnd).2
        (fun a ha b hb => hinj a (List.mem_cons_of_mem x ha) b (List.mem_cons_of_mem x hb))

lemma extpiWriteCols_at {keys : List ℕ} (hnd : keys.Nodup) (base : ℕ → ℕ)
    (aj : ℕ) (f2c : ℕ → ℕ) {k : ℕ} (hk : k ∈ keys) :
    extpiWriteCols base aj keys f2c (aj + rankOf keys k) = f2c k := by
  rw [extpiWriteCols]
  exact foldl_update_eq (fun x => aj + rankOf keys x) f2c keys base k hk hnd
    (fun a ha b hb hab => rankOf_inj hnd ha hb (Nat.add_left_cancel hab))

/-- C6 (amended: the input row's column indices are additionally assumed
strictly increasing, and `f2c` strictly monotone on coarse points — the
prefix-sum coarse numbering).  Both fill kernels then produce strictly
increasing column indices: the direct kernel because it replays the sorted
row, the extended+i kernel because its rank-based output sort orders the
hash keys. -/
theorem fill_cols_sorted (A : CSRMat) (S : ℕ → Bool) (cf : ℕ → ℤ)
    (FF1 : Bool) (f2c : ℕ → ℕ) (base : ℕ → ℕ) (aj : ℕ) (r i : ℕ)
    (hsorted : List.Pairwise (fun a b => a < b) ((rowJ A r).map A.col))
    (hf2c : ∀ c1 c2, cf c1 = 1 → cf c2 = 1 → c1 < c2 → f2c c1 < f2c c2) :
    List.Pairwise (fun a b => a < b) (dirFillCols A S cf f2c r) ∧
      List.Pairwise (fun a b => a < b) (extpiRowCols A S cf FF1 f2c base aj i) := by
  constructor
  · rw [dirFillCols, List.pairwise_map]
    have hsub : List.Sublist (dirFillJs A S cf r) (rowJ A r) := List.filter_sublist (rowJ A r)
    have hpw : List.Pairwise (fun a b => A.col a < A.col b) (dirFillJs A S cf r) := by
      rw [← List.pairwise_map]
      exact List.Pairwise.sublist (List.Sublist.map A.col hsub)
        (by simpa using hsorted)
    refine hpw.imp_of_mem ?_
    intro a b ha hb hab
    have hca : cf (A.col a) = 1 := by
      rw [dirFillJs, List.mem_filter] at ha
      have := ha.2
      simp only [Bool.and_eq_true, decide_eq_true_eq] at this
      exact this.1.2
    have hcb : cf (A.col b) = 1 := by
      rw [dirFillJs, List.mem_filter] at hb
      have := hb.2
      simp only [Bool.and_eq_true, decide_eq_true_eq] at this
      exact this.1.2
    exact hf2c _ _ hca hcb hab
  · rw [extpiRowCols, List.pairwise_iff_getElem]
    intro p q hp hq hpq
    rw [List.length_map, List.length_range] at hp hq
    have hnd := chatList_nodup A S cf FF1 i
    obtain ⟨kp, hkp, hkpr⟩ := rankOf_surj hnd hp
    obtain ⟨kq, hkq, hkqr⟩ := rankOf_surj hnd hq
    simp only [List.getElem_map, List.getElem_range]
    rw [← hkpr, ← hkqr,
      extpiWriteCols_at hnd base aj f2c hkp, extpiWriteCols_at hnd base aj f2c hkq]
    have hklt : kp < kq := by
      rcases lt_trichotomy kp kq with h | h | h
      · exact h
      · subst h
        omega
      · have := rankOf_strict_mono hnd hkq h
        omega
    exact hf2c kp kq (chatList_coarse A S cf FF1 i kp hkp)
      (chatList_coarse A S cf FF1 i kq hkq) hklt

/-- Witness for the amended C6 on a sorted 3-row instance: both kernels
produce strictly increasing P columns for row `0`. -/
theorem fill_cols_sorted_witness :
    List.Pairwise (fun a b => a < b) ((rowJ wA6 0).map wA6.col) ∧
      List.Pairwise (fun a b => a < b) (dirFillCols wA6 wS6 wCf6 wF2c6 0) ∧
      List.Pairwise (fun a b => a < b)
        (extpiRowCols wA6 wS6 wCf6 false wF2c6 (fun _ => 0) 0 0) := by
  have hf2c : ∀ c1 c2, wCf6 c1 = 1 → wCf6 c2 = 1 → c1 < c2 → wF2c6 c1 < wF2c6 c2 := by
    have hc : ∀ c, wCf6 c = 1 → c = 1 ∨ c = 2 := by
      intro c hcf
      by_cases h1 : c = 1
      · exact Or.inl h1
      · by_cases h2 : c = 2
        · exact Or.inr h2
        · rw [wCf6] at hcf
          simp only [h1, h2, if_false] at hcf
          exact absurd hcf (by decide)
    intro c1 c2 h1 h2 hlt
    rcases hc c1 h1 with rfl | rfl <;> rcases hc c2 h2 with rfl | rfl
    · omega
    · decide
    · omega
    · omega
  obtain ⟨hdir, hext⟩ := fill_cols_sorted wA6 wS6 wCf6 false wF2c6 (fun _ => 0) 0 0 0
    (by decide) hf2c
  exact ⟨by decide, hdir, hext⟩

/-! ## Claim C8: the denominators of the extended+i fill kernel -/

lemma list_sum_nonneg (l : List ℚ) (h : ∀ x ∈ l, 0 ≤ x) : 0 ≤ l.sum := by
  induction l with
  | nil => simp
  | cons x t ih =>
    rw [List.sum_cons]
    have hx := h x (List.mem_cons_self x t)
    have ht := ih (fun y hy => h y (List.mem_cons_of_mem x hy))
    linarith

lemma list_sum_eq_zero_iff_nonneg (l : List ℚ) (h : ∀ x ∈ l, 0 ≤ x) :
    l.sum = 0 ↔ ∀ x ∈ l, x = 0 := by
  induction l with
  | nil => simp
  | cons x t ih =>
    rw [List.sum_cons]
    have hx := h x (List.mem_cons_self x t)
    have ht := list_sum_nonneg t (fun y hy => h y (List.mem_cons_of_mem x hy))
    constructor
    · intro hz
      have hx0 : x = 0 := by linarith
      have ht0 : t.sum = 0 := by linarith
      intro y hy
      rcases List.mem_cons.mp hy with h1 | h1
      · rw [h1]; exact hx0
      · exact (ih (fun y hy => h y (List.mem_cons_of_mem x hy))).mp ht0 y h1
    · intro hz
      rw [hz x (List.mem_cons_self x t),
        (ih (fun y hy => h y (List.mem_cons_of_mem x hy))).mpr
          (fun y hy => hz y (List.mem_cons_of_mem x hy))]
      ring

lemma list_sum_map_neg (l : List ℚ) : (l.map (fun y => -y)).sum = -l.sum := by
  induction l with
  | nil => simp
  | cons x t ih => simp [ih]; ring

lemma list_sum_eq_zero_iff_nonpos (l : List ℚ) (h : ∀ x ∈ l, x ≤ 0) :
    l.sum = 0 ↔ ∀ x ∈ l, x = 0 := by
  have hneg : ∀ x ∈ l.map (fun y => -y), 0 ≤ x := by
    intro x hx
    rw [List.mem_map] at hx
    obtain ⟨y, hy, hxy⟩ := hx
    rw [← hxy]
    simpa using h y hy
  have hkey := list_sum_eq_zero_iff_nonneg (l.map (fun y => -y)) hneg
  rw [list_sum_map_neg] at hkey
  constructor
  · intro hz y hy
    have h0 : -l.sum = 0 := by rw [hz]; ring
    have := hkey.mp h0 (-y) (List.mem_map.mpr ⟨y, hy, rfl⟩)
    linarith
  · intro hz
    have : ∀ x ∈ l.map (fun y => -y), x = 0 := by
      intro x hx
      rw [List.mem_map] at hx
      obtain ⟨y, hy, hxy⟩ := hx
      rw [← hxy, hz y hy]
      ring
    have h0 := hkey.mpr this
    linarith

/-- C8 (amended).  For a fine row `i` and a strongly-connected fine
neighbour `k`, the accumulated `sum_l` vanishes exactly when the neighbour's
row has no nonzero entry of sign opposite to `diag[i]` at column `i` or at
a `C^hat` coarse column: all contributions share one sign, so the sum is
zero only when every contribution is.  In particular `sum_l` (and likewise
the final denominator) can be zero and the divisions are unguarded. -/
theorem extpi_sumL_zero_iff (A : CSRMat) (S : ℕ → Bool) (cf : ℕ → ℤ) (FF1 : Bool)
    (dg : ℕ → ℚ) (i k : ℕ) (_hk : k ∈ rowJ A i) (_hS : S k = true)
    (_hrow : cf i = 2) (_hfine : cf (A.col k) = 2) :
    sumL A S cf FF1 dg i k = 0 ↔
      ∀ l ∈ rowJ A (A.col k), contribCond A S cf FF1 dg i l → A.val l = 0 := by
  classical
  rw [sumL]
  set term : ℕ → ℚ := fun l =>
    if A.col l = i then (if (0 ≤ dg i ↔ 0 ≤ A.val l) then 0 else A.val l)
    else if cf (A.col l) = 1 ∧ ¬(0 ≤ dg i ↔ 0 ≤ A.val l) ∧
        A.col l ∈ chatList A S cf FF1 i then A.val l
    else 0 with hterm_def
  have hterm : ∀ l, (term l = 0 ↔ (contribCond A S cf FF1 dg i l → A.val l = 0)) := by
    intro l
    simp only [hterm_def]
    by_cases h1 : A.col l = i
    · rw [if_pos h1]
      by_cases h2 : (0 ≤ dg i ↔ 0 ≤ A.val l)
      · rw [if_pos h2]
        exact iff_of_true rfl (fun hc => absurd h2 hc.1)
      · rw [if_neg h2]
        exact ⟨fun hv _ => hv, fun hc => hc ⟨h2, Or.inl h1⟩⟩
    · rw [if_neg h1]
      by_cases h3 : cf (A.col l) = 1 ∧ ¬(0 ≤ dg i ↔ 0 ≤ A.val l) ∧
          A.col l ∈ chatList A S cf FF1 i
      · rw [if_pos h3]
        exact ⟨fun hv _ => hv, fun hc => hc ⟨h3.2.1, Or.inr ⟨h3.1, h3.2.2⟩⟩⟩
      · rw [if_neg h3]
        refine iff_of_true rfl (fun hc => ?_)
        rcases hc.2 with hcl | hcl
        · exact absurd hcl h1
        · exact absurd ⟨hcl.1, hc.1, hcl.2⟩ h3
  have hsign : (∀ x ∈ (rowJ A (A.col k)).map term, x ≤ 0) ∨
      (∀ x ∈ (rowJ A (A.col k)).map term, 0 ≤ x) := by
    by_cases hpos : 0 ≤ dg i
    · left
      intro x hx
      rw [List.mem_map] at hx
      obtain ⟨l, hl, hxl⟩ := hx
      rw [← hxl]
      simp only [hterm_def]
      split
      · split
        · exact le_refl 0
        · rename_i h2
          have : ¬(0 ≤ A.val l) := fun hv => h2 (iff_of_true hpos hv)
          linarith [not_le.mp this]
      · split
        · rename_i h3
          have : ¬(0 ≤ A.val l) := fun hv => h3.2.1 (iff_of_true hpos hv)
          linarith [not_le.mp this]
        · exact le_refl 0
    · right
      intro x hx
      rw [List.mem_map] at hx
      obtain ⟨l, hl, hxl⟩ := hx
      rw [← hxl]
      simp only [hterm_def]
      split
      · split
        · exact le_refl 0
        · rename_i h2
          by_cases hv : 0 ≤ A.val l
          · exact hv
          · exact absurd (iff_of_false hpos hv) h2
      · split
        · rename_i h3
          by_cases hv : 0 ≤ A.val l
          · exact hv
          · exact absurd (iff_of_false hpos hv) h3.2.1
        · exact le_refl 0
  have hzero : ((rowJ A (A.col k)).map term).sum = 0 ↔
      ∀ x ∈ (rowJ A (A.col k)).map term, x = 0 := by
    rcases hsign with h | h
    · exact list_sum_eq_zero_iff_nonpos _ h
    · exact list_sum_eq_zero_iff_nonneg _ h
  rw [hzero, List.forall_mem_map]
  exact forall_congr' fun l => forall_congr' fun _ => hterm l

/-- Witness for the amended C8 on the concrete 2-row instance: both signs
agree, so the characterisation yields `sum_l = 0`. -/
theorem extpi_sumL_zero_iff_witness :
    (0 : ℕ) ∈ rowJ cxA8 0 ∧ cxS8 0 = true ∧ cxCf8 0 = 2 ∧
      cxCf8 (cxA8.col 0) = 2 ∧ sumL cxA8 cxS8 cxCf8 false cxDg8 0 0 = 0 := by
  refine ⟨by decide, by decide, by decide, by decide, ?_⟩
  refine (extpi_sumL_zero_iff cxA8 cxS8 cxCf8 false cxDg8 0 0
    (by decide) (by decide) (by decide) (by decide)).mpr ?_
  intro l hl hc
  have hl1 : l = 1 := by
    have : rowJ cxA8 (cxA8.col 0) = [1] := rfl
    rw [this, List.mem_singleton] at hl
    exact hl
  subst hl1
  refine absurd ?_ hc.1
  show (0 : ℚ) ≤ cxDg8 0 ↔ (0 : ℚ) ≤ cxA8.val 1
  rw [show cxDg8 0 = 0 from rfl, show cxA8.val 1 = 5 from rfl]
  norm_num

/-- Counterexample to C8 as stated: on the concrete instance, row `0` is
fine, `1` is a strongly-connected fine neighbour it processes, yet both the
denominator `sum_l` and the final denominator `sum_k + sum_n + diag[0]`
are zero — the divisions `val_ik / sum_l` and `-1 / (a_ii_tilde + a_ii)`
divide by zero. -/
theorem extpi_denom_zero_cx :
    cxS8 0 = true ∧ cxCf8 0 = 2 ∧ cxCf8 (cxA8.col 0) = 2 ∧
      sumL cxA8 cxS8 cxCf8 false cxDg8 0 0 = 0 ∧
      extpiDenom cxA8 cxS8 cxCf8 false cxDg8 0 = 0 := by
  have hsumL : sumL cxA8 cxS8 cxCf8 false cxDg8 0 0 = 0 := by
    rw [sumL, show rowJ cxA8 (cxA8.col 0) = [1] from rfl]
    simp only [List.map_cons, List.map_nil, List.sum_cons, List.sum_nil]
    rw [if_neg (by decide), if_neg ?hc]
    · norm_num
    case hc =>
      rintro ⟨h1, -⟩
      exact absurd h1 (by decide)
  refine ⟨by decide, by decide, by decide, hsumL, ?_⟩
  rw [extpiDenom, show rowJ cxA8 0 = [0] from rfl]
  simp only [List.map_cons, List.map_nil, List.sum_cons, List.sum_nil]
  rw [if_neg (by decide), if_pos (by constructor <;> decide)]
  rw [sumKContrib, if_neg ?hsgn, if_neg ?hsn]
  · rw [show cxDg8 0 = 0 from rfl]
    norm_num
  case hsgn =>
    intro hc
    refine hc ?_
    rw [show valKi cxA8 0 (cxA8.col 0) = 0 from by decide,
      show cxDg8 (cxA8.col 0) = 5 from rfl]
    norm_num
  case hsn =>
    rintro ⟨-, hS⟩
    exact absurd hS (by decide)

/-! ## Claim C9: the compressor preserves row sums -/

/-- C9.  Whenever the kept-entry sum of a row is nonzero, the rescaled
compressed row sums to the original row sum exactly. -/
theorem compress_row_sum_preserved (A : CSRMat) (trunc : ℚ) (r : ℕ)
    (h : compRowSum A trunc r ≠ 0) :
    (compVals A trunc r).sum = rowSum A r := by
  rw [compVals]
  rw [List.sum_map_mul_right]
  rw [← compRowSum, compScale]
  field_simp

/-- Witness for C9 on the one-row instance with truncation ratio `1/2`:
only the entry `4` survives and is rescaled so the row sum stays `5`. -/
theorem compress_row_sum_preserved_witness :
    compRowSum wA9 (1 / 2) 0 ≠ 0 ∧ rowSum wA9 0 = 5 ∧
      (compVals wA9 (1 / 2) 0).sum = rowSum wA9 0 := by
  have hmax : rowMaxAbs wA9 0 = 4 := by decide
  have hkeep : compKeepJs wA9 (1 / 2) 0 = [0] := by
    rw [compKeepJs, show rowJ wA9 0 = [0, 1] from rfl]
    simp only [List.filter_cons, List.filter_nil]
    have h0 : rowMaxAbs wA9 0 * (1 / 2) ≤ |wA9.val 0| := by
      rw [hmax, show wA9.val 0 = 4 from rfl]
      norm_num
    have h1 : ¬(rowMaxAbs wA9 0 * (1 / 2) ≤ |wA9.val 1|) := by
      rw [hmax, show wA9.val 1 = 1 from rfl]
      norm_num
    rw [decide_eq_true h0, decide_eq_false h1]
    decide
  have hsum : compRowSum wA9 (1 / 2) 0 = 4 := by
    rw [compRowSum, hkeep]
    simp only [List.map_cons, List.map_nil, List.sum_cons, List.sum_nil]
    rw [show wA9.val 0 = 4 from rfl]
    ring
  have hrs : rowSum wA9 0 = 5 := by
    rw [rowSum, show rowJ wA9 0 = [0, 1] from rfl]
    simp only [List.map_cons, List.map_nil, List.sum_cons, List.sum_nil]
    rw [show wA9.val 0 = 4 from rfl, show wA9.val 1 = 1 from rfl]
    ring
  exact ⟨by rw [hsum]; norm_num, hrs,
    compress_row_sum_preserved wA9 (1 / 2) 0 (by rw [hsum]; norm_num)⟩

end RSAMG
